import Mathlib

/-!
# Verification of the `bubble` container-provisioning tool

Shallow embedding, in Lean 4, of the parts of the `bubble` source that the
specification claims talk about:

* `bubble/relay.py` — relay-target validation, the connection handler and
  the `RateLimiter` sliding-window rate limiter;
* `bubble/git_store.py` — bare-mirror path layout and `repo_is_known`;
* `bubble/target.py` — `parse_target` and the `Target` record;
* `bubble/repo_registry.py` — `RepoRegistry.register` and `_save`;
* `bubble/network.py` — `_build_allowlist_script`;
* `bubble/remote.py` — `RemoteHost.parse` / `spec_string`.

Python strings are embedded as `List Char`; machine-independent integers
(`time.time()` values, ports, PR numbers) as `Int`/`Nat`.  Filesystem and
subprocess effects are passed in as explicit parameters or returned as
operation lists, so that every definition stays executable.
-/

namespace Bubble

/-! ## Basic string utilities shared by several modules

Python's `str.strip`, `str.split`, `str.lower`, `str.isdigit`, `"x" in s`
and `int(s)` are modelled here on `List Char`.
-/

/-- The ASCII whitespace characters stripped by Python's `str.strip()`. -/
def isPySpace (c : Char) : Bool :=
  c = ' ' || c = '\t' || c = '\n' || c = '\x0d' || c = '\x0b' || c = '\x0c'

/-- Python `s.strip()`: remove leading and trailing whitespace. -/
def pyStrip (s : List Char) : List Char :=
  ((s.dropWhile isPySpace).reverse.dropWhile isPySpace).reverse

/-- Python `s.split(sep)` for a one-character separator: always returns a
non-empty list of (possibly empty) segments. -/
def splitOnChar (sep : Char) : List Char → List (List Char)
  | [] => [[]]
  | c :: rest =>
    match splitOnChar sep rest with
    | [] => [[]]
    | seg :: segs =>
      if c = sep then [] :: seg :: segs else (c :: seg) :: segs

/-- Python `"/".join parts`. -/
def joinSlash : List (List Char) → List Char
  | [] => []
  | [p] => p
  | p :: ps => p ++ '/' :: joinSlash ps

/-- Python `s.lower()` (ASCII model). -/
def toLowerL (s : List Char) : List Char :=
  s.map Char.toLower

/-- Nonempty string of ASCII decimal digits: the plain digit strings,
on which `int()` always succeeds (see `pyIsdigitStr` for the wider
`str.isdigit`). -/
def isDigits (s : List Char) : Bool :=
  ¬ s = [] && s.all Char.isDigit

/-- The non-ASCII `str.isdigit` characters carried by the model: the
Unicode `Numeric_Type=Digit` superscript and subscript digits — `¹ ² ³`
from Latin-1 and `⁰`, `⁴`–`⁹`, `₀`–`₉` from U+2070–U+2089.  Python
`str.isdigit` accepts all of them while `int()` rejects every one
(they are not decimal digits). -/
def pyDigitExtra (c : Char) : Bool :=
  c == '¹' || c == '²' || c == '³' || c == '⁰' ||
  (decide (0x2074 ≤ c.toNat) && decide (c.toNat ≤ 0x2079)) ||
  (decide (0x2080 ≤ c.toNat) && decide (c.toNat ≤ 0x2089))

/-- Python `s.isdigit()`: nonempty and every character a digit — an
ASCII decimal digit or one of the `Numeric_Type=Digit` characters
above, which `isdigit` accepts although `int()` does not. -/
def pyIsdigitStr (s : List Char) : Bool :=
  ¬ s = [] && s.all (fun c => c.isDigit || pyDigitExtra c)

/-- Numeric value of a list of ASCII digits. -/
def digitsVal (s : List Char) : Nat :=
  s.foldl (fun a c => 10 * a + (c.toNat - 48)) 0

/-- `digitChar d` is the ASCII digit for `d < 10`. -/
def digitChar (d : Nat) : Char :=
  Char.ofNat (48 + d)

/-- Decimal digits of a natural number, most significant first.
Structural recursion on an explicit fuel so that the definition reduces by
`decide`/`rfl`; `natDigits` supplies sufficient fuel. -/
def natDigitsAux : Nat → Nat → List Char
  | 0, _ => []
  | fuel + 1, n =>
    if n < 10 then [digitChar n]
    else natDigitsAux fuel (n / 10) ++ [digitChar (n % 10)]

/-- Decimal representation of a natural number (model of Python `str(n)`). -/
def natRepr (n : Nat) : List Char :=
  natDigitsAux (n + 1) n

/-- Decimal representation of an integer (model of Python `str(n)` on `int`). -/
def intRepr (n : Int) : List Char :=
  if n < 0 then '-' :: natRepr n.natAbs else natRepr n.natAbs

/-- No two adjacent underscores. -/
def noDoubleUnderscore : List Char → Bool
  | [] => true
  | [_] => true
  | c :: d :: rest => ¬ (c = '_' ∧ d = '_') && noDoubleUnderscore (d :: rest)

/-- Validity of the digit part accepted by Python `int(str)`: non-empty,
digits with single interior underscores (no leading/trailing/double `_`). -/
def pyDigitsValid (s : List Char) : Bool :=
  ¬ s = [] && s.all (fun c => c.isDigit || c = '_')
    && ¬ s.head? = some '_' && ¬ s.getLast? = some '_'
    && noDoubleUnderscore s

/-- The optional leading sign accepted by Python `int(str)`: the sign
factor and the remaining digit part. -/
def pyIntSign (t : List Char) : Int × List Char :=
  if t.head? = some '+' then (1, t.tail)
  else if t.head? = some '-' then (-1, t.tail)
  else (1, t)

/-- Model of Python `int(s)` for base-10 strings: strips whitespace, allows
one optional sign, digits with interior underscores.  Returns `none` where
`int` raises `ValueError`. -/
def pyIntParse (s : List Char) : Option Int :=
  if pyDigitsValid (pyIntSign (pyStrip s)).2 then
    some ((pyIntSign (pyStrip s)).1 *
      (digitsVal ((pyIntSign (pyStrip s)).2.filter (fun c => ¬ c = '_')) : Int))
  else
    none

/-! ## `bubble/git_store.py` — bare mirror layout -/

/-- `config.GIT_DIR`, the directory holding the bare mirrors. -/
def GIT_DIR : List Char := "~/.bubble/git".toList

/-- `bare_repo_path(org_repo)`: `GIT_DIR / f"{org_repo.split('/')[-1]}.git"`.
Only the last `/`-separated segment of `org_repo` is used. -/
def bareRepoPath (orgRepo : List Char) : List Char :=
  GIT_DIR ++ '/' :: ((splitOnChar '/' orgRepo).getLastD [] ++ ".git".toList)

/-- `repo_is_known(org_repo)`: whether the bare repo path exists.  The
filesystem is abstracted as the predicate `fs` (set of existing paths). -/
def repoIsKnown (fs : List Char → Bool) (orgRepo : List Char) : Bool :=
  fs (bareRepoPath orgRepo)

/-! ## `bubble/relay.py` — target validation and connection handling -/

/-- `MAX_TARGET_LENGTH` from `relay.py`. -/
def MAX_TARGET_LENGTH : Nat := 500

/-- The shell metacharacters rejected by `validate_relay_target`
(`set(";|&$\x60\\(){}[]!#")` in the source; backtick and braces are written
via character codes). -/
def dangerousChars : List Char :=
  [';', '|', '&', '$', Char.ofNat 96, '\\', '(', ')',
   Char.ofNat 123, Char.ofNat 125, '[', ']', '!', '#']

/-- `validate_relay_target(target)` up to and including its pre-parse
checks, in source order.  The trailing part of the function (parse the
target, check the owner/repo regex, check `repo_is_known`) depends on the
registry and filesystem and is passed in as `rest`; `validateRelayFull`
below instantiates it. -/
def validateRelayTarget (rest : List Char → String × String)
    (target : List Char) : String × String :=
  if target = [] then ("error", "Empty target.")
  else if target.length > MAX_TARGET_LENGTH then ("error", "Target too long.")
  else if target.head? = some '.' ∨ target.head? = some '/' ∨ target.head? = some '~' then
    ("error", "Local paths are not allowed via relay.")
  else if target.head? = some '-' then ("error", "Invalid target.")
  else if "--path".toList <:+: target then
    ("error", "The --path flag is not allowed via relay.")
  else if target.any (fun ch => dangerousChars.contains ch) then
    ("error", "Invalid characters in target.")
  else if "..".toList <:+: target then
    ("error", "Path traversal is not allowed.")
  else rest target

/-- `_handle_connection` after the request has been decoded, with an
active token registry (`tokenLookup`) and rate limiter (`rateCheck`; the
stateful limiter itself is modelled separately as `RateLimiter`).
Returns the `(status, message)` response and whether the detached
`bubble open` subprocess is spawned (`_open_bubble`). -/
def handleRelayConnection (tokenLookup : String → Option String)
    (rateCheck : String → Bool) (rest : List Char → String × String)
    (target : List Char) (token : String) : (String × String) × Bool :=
  if token = "" then (("error", "Relay token required."), false)
  else
    match tokenLookup (token.take 128) with
    | none => (("error", "Invalid relay token."), false)
    | some container =>
      if ¬ rateCheck container then
        (("rate_limited", "Rate limited. Try again later."), false)
      else
        let sm := validateRelayTarget rest target
        if ¬ sm.1 = "ok" then ((sm.1, sm.2), false)
        else (("ok", "Opening bubble."), true)

/-- The target shapes that claim C1 says are always rejected: leading
`.`, `/`, `~` or `-`; `..` or `--path` anywhere; any shell
metacharacter. -/
def relayForbiddenShape (target : List Char) : Prop :=
  target.head? = some '.' ∨ target.head? = some '/' ∨ target.head? = some '~'
    ∨ target.head? = some '-'
    ∨ "..".toList <:+: target
    ∨ "--path".toList <:+: target
    ∨ ∃ c ∈ dangerousChars, c ∈ target

instance : DecidablePred relayForbiddenShape := fun t => by
  unfold relayForbiddenShape; infer_instance

/-! ## `bubble/network.py` — egress allowlist script -/

/-- The domain pattern `^[a-zA-Z0-9.*-]+$` from `network.py`. -/
def domainReOk (d : List Char) : Bool :=
  ¬ d = [] && d.all (fun c => c.isAlpha || c.isDigit || c = '.' || c = '*' || c = '-')

/-- The per-domain section of `_build_allowlist_script` (wildcard domains
resolve their base domain; plain domains are resolved directly). -/
def domainLines (domain : List Char) : List String :=
  if domain.take 2 = "*.".toList then
    let rd := String.mk (domain.drop 2)
    ["IPS=$(getent ahostsv4 " ++ rd ++ " 2>/dev/null | awk '\x7bprint $1\x7d' | sort -u)",
     "if [ -z \"$IPS\" ]; then",
     "  echo \"Warning: wildcard domain " ++ String.mk domain ++
       " did not resolve. Use explicit subdomains instead.\" >&2",
     "else",
     "  for ip in $IPS; do",
     "    iptables -A OUTPUT -d $ip -j ACCEPT",
     "  done",
     "fi"]
  else
    ["for ip in $(getent ahostsv4 " ++ String.mk domain ++
       " 2>/dev/null | awk '\x7bprint $1\x7d' | sort -u); do",
     "  iptables -A OUTPUT -d $ip -j ACCEPT",
     "done"]

/-- The `lines` list built by `_build_allowlist_script(domains)`, in source
order (literal braces in the shell text are written `\x7b`/`\x7d`). -/
def buildAllowlistLines (domains : List (List Char)) : List String :=
  ["#!/bin/bash",
   "set -e",
   "",
   "# --- IPv6: block entirely ---",
   "ip6tables -F OUTPUT 2>/dev/null || true",
   "ip6tables -A OUTPUT -o lo -j ACCEPT",
   "ip6tables -P OUTPUT DROP",
   "",
   "# --- IPv4 ---",
   "# Temporarily allow all output so DNS resolution works during setup",
   "iptables -P OUTPUT ACCEPT",
   "iptables -F OUTPUT 2>/dev/null || true",
   "",
   "# Allow loopback",
   "iptables -A OUTPUT -o lo -j ACCEPT",
   "",
   "# Allow established connections",
   "iptables -A OUTPUT -m state --state ESTABLISHED,RELATED -j ACCEPT",
   "",
   "# Allow DNS to container's configured resolver (stub)",
   "RESOLVER=$(grep -m1 nameserver /etc/resolv.conf | awk '\x7bprint $2\x7d')",
   "if [ -n \"$RESOLVER\" ]; then",
   "  iptables -A OUTPUT -d $RESOLVER -p udp --dport 53 -j ACCEPT",
   "  iptables -A OUTPUT -d $RESOLVER -p tcp --dport 53 -j ACCEPT",
   "fi",
   "",
   "# Allow DNS to upstream servers (systemd-resolved forwards to these)",
   "for UPSTREAM in $(resolvectl dns 2>/dev/null | awk -F: '\x7bprint $2\x7d'" ++
     " | grep -oE '[0-9]+\\.[0-9]+\\.[0-9]+\\.[0-9]+'); do",
   "  iptables -A OUTPUT -d $UPSTREAM -p udp --dport 53 -j ACCEPT",
   "  iptables -A OUTPUT -d $UPSTREAM -p tcp --dport 53 -j ACCEPT",
   "done",
   "",
   "# Resolve and allow each domain (IPv4 only)"]
  ++ domains.flatMap domainLines
  ++ ["",
      "# Default: drop everything else",
      "iptables -P OUTPUT DROP",
      "",
      "echo 'Network allowlist applied.'"]

/-- `_build_allowlist_script`: the joined script text. -/
def buildAllowlistScript (domains : List (List Char)) : String :=
  String.intercalate "\n" (buildAllowlistLines domains)

/-- `apply_allowlist`: validate every domain against the domain pattern,
then produce the script that is executed in the container via
`bash -c`.  Returns the error message for an invalid domain. -/
def applyAllowlist (domains : List (List Char)) : Except String String :=
  match domains.find? (fun d => ¬ domainReOk d) with
  | some d => .error ("Invalid domain in allowlist: " ++ String.mk d)
  | none => .ok (buildAllowlistScript domains)

/-! ## `bubble/repo_registry.py` — persistence of `RepoRegistry._save` -/

/-- `config.REPOS_FILE`. -/
def REPOS_FILE : List Char := "~/.bubble/repos.json".toList

/-- Filesystem operations performed by persistence code. -/
inductive FsOp
  | mkdirParents (path : List Char)
  | writeText (path content : List Char)
  | renameFile (src dst : List Char)
deriving DecidableEq

/-- Whether an operation is a rename. -/
def FsOp.isRename : FsOp → Bool
  | .renameFile _ _ => true
  | _ => false

/-- Operation trace of `RepoRegistry._save`: `self._path.parent.mkdir(...)`
followed by `self._path.write_text(json.dumps(data, indent=2) + "\n")` —
the document `doc` is written directly to the registry path. -/
def repoRegistrySaveOps (doc : List Char) : List FsOp :=
  [.mkdirParents "~/.bubble".toList, .writeText REPOS_FILE doc]

/-! ## `bubble/target.py` — `Target` and `parse_target` -/

/-- The parsed target record (`@dataclass Target`). -/
structure Target where
  owner : List Char
  repo : List Char
  /-- `"pr" | "branch" | "commit" | "repo"`. -/
  kind : String
  ref : List Char
  original : List Char
  localPath : List Char
deriving DecidableEq

/-- `Target.org_repo`: `f"{owner}/{repo}"`. -/
def Target.orgRepo (t : Target) : List Char :=
  t.owner ++ '/' :: t.repo

/-- The registry operations `parse_target` consults.  In the source,
`resolve` returns the joined string `f"{owner}/{repo}"` which the caller
splits at the first `/`; since a registered owner never contains `/`,
this is represented directly as the pair. -/
structure RegIface where
  resolve : List Char → Option (List Char × List Char)
  isAmbiguous : List Char → Bool
  ambiguousOptions : List Char → List (List Char)

/-- The filesystem/subprocess context of `parse_target`. -/
structure ParseEnv where
  /-- `_parse_local_path(s)`: the git inspection of a local path; on
  success `(owner, repo, current branch, repo root)`, with the clean-tree
  and attached-HEAD checks folded into the error case. -/
  localPath : List Char → Except String (List Char × List Char × List Char × List Char)
  /-- `_git_repo_info(".")`: `(owner, repo)` of the current directory's
  checkout, or `none` when that fails. -/
  curRepo : Option (List Char × List Char)

/-- `re.sub(r"^https?://", "", s)` (anchored, at most one removal). -/
def stripScheme (s : List Char) : List Char :=
  if "https://".toList <+: s then s.drop 8
  else if "http://".toList <+: s then s.drop 7
  else s

/-- `re.sub(r"^github\.com/", "", s)`. -/
def stripGithub (s : List Char) : List Char :=
  if "github.com/".toList <+: s then s.drop 11 else s

/-- Python `s.rstrip("/")`. -/
def rstripSlash (s : List Char) : List Char :=
  (s.reverse.dropWhile (fun c => c = '/')).reverse

/-- The short-name branches of `parse_target` (`short_name/pull/N`,
`short_name/tree/branch`, `short_name`), resolved via the registry, and
the final parse failure. -/
def parseShortName (reg : RegIface) (parts : List (List Char))
    (original : List Char) : Except String Target :=
  if parts.length ≥ 3 ∧ parts.getD 1 [] = "pull".toList then
    match reg.resolve (parts.getD 0 []) with
    | some (o, r) =>
      match pyIntParse (parts.getD 2 []) with
      | some n => .ok ⟨o, r, "pr", intRepr n, original, []⟩
      | none => .error "Invalid PR number."
    | none =>
      if reg.isAmbiguous (parts.getD 0 []) then .error "is ambiguous."
      else .error "Unknown repo. Use the full owner/repo form first."
  else if parts.length ≥ 3 ∧ parts.getD 1 [] = "tree".toList then
    match reg.resolve (parts.getD 0 []) with
    | some (o, r) => .ok ⟨o, r, "branch", joinSlash (parts.drop 2), original, []⟩
    | none =>
      if reg.isAmbiguous (parts.getD 0 []) then .error "is ambiguous."
      else .error "Unknown repo. Use the full owner/repo form first."
  else if parts.length = 1 then
    match reg.resolve (parts.getD 0 []) with
    | some (o, r) => .ok ⟨o, r, "repo", [], original, []⟩
    | none =>
      if reg.isAmbiguous (parts.getD 0 []) then .error "is ambiguous."
      else .error "Unknown repo. Use the full owner/repo form first."
  else .error "Cannot parse target. Use a GitHub URL or owner/repo format."

/-- The `owner/repo/...` branches of `parse_target` (`o/r/pull/N`,
`o/r/tree/branch`, `o/r/commit/sha`, `o/r`), falling through to the
short-name branches. -/
def parsePartsTarget (reg : RegIface) (parts : List (List Char))
    (original : List Char) : Except String Target :=
  if parts.length ≥ 4 ∧ parts.getD 2 [] = "pull".toList then
    match pyIntParse (parts.getD 3 []) with
    | some n => .ok ⟨parts.getD 0 [], parts.getD 1 [], "pr", intRepr n, original, []⟩
    | none => .error "Invalid PR number."
  else if parts.length ≥ 4 ∧ parts.getD 2 [] = "tree".toList then
    if joinSlash (parts.drop 3) = [] then .error "Empty branch name."
    else .ok ⟨parts.getD 0 [], parts.getD 1 [], "branch", joinSlash (parts.drop 3), original, []⟩
  else if parts.length ≥ 4 ∧ parts.getD 2 [] = "commit".toList then
    .ok ⟨parts.getD 0 [], parts.getD 1 [], "commit", parts.getD 3 [], original, []⟩
  else if parts.length = 2 then
    .ok ⟨parts.getD 0 [], parts.getD 1 [], "repo", [], original, []⟩
  else parseShortName reg parts original

/-- `parse_target(raw, registry)` from `target.py`, branch for branch in
source order: local paths, then bare PR numbers, then the
slash-separated forms. -/
def parseTarget (env : ParseEnv) (reg : RegIface) (raw : List Char) :
    Except String Target :=
  let s0 := pyStrip raw
  if s0.head? = some '/' ∨ s0.head? = some '.' then
    match env.localPath s0 with
    | .error e => .error e
    | .ok (o, r, br, root) => .ok ⟨o, r, "branch", br, s0, root⟩
  else
    let s := rstripSlash (stripGithub (stripScheme s0))
    if s = [] then .error "Empty target."
    else if pyIsdigitStr s then
      match env.curRepo with
      | some (o, r) => .ok ⟨o, r, "pr", s, s0, []⟩
      | none => .error "looks like a PR number, but the current directory is not a git repository with a GitHub remote."
    else parsePartsTarget reg (splitOnChar '/' s) s0

/-- The GitHub name pattern `^[a-zA-Z0-9._-]+$` from `relay.py`. -/
def githubNameOk (s : List Char) : Bool :=
  ¬ s = [] && s.all (fun c => c.isAlpha || c.isDigit || c = '.' || c = '_' || c = '-')

/-- The full `validate_relay_target`: the pre-parse checks of
`validateRelayTarget` followed by the parse, the owner/repo name checks
and the `repo_is_known` check. -/
def validateRelayFull (env : ParseEnv) (reg : RegIface) (fs : List Char → Bool)
    (target : List Char) : String × String :=
  validateRelayTarget (fun t =>
    match parseTarget env reg t with
    | .error e => ("error", e)
    | .ok tg =>
      if ¬ githubNameOk tg.owner then ("error", "Invalid owner name.")
      else if ¬ githubNameOk tg.repo then ("error", "Invalid repo name.")
      else if ¬ repoIsKnown fs tg.orgRepo then
        ("unknown_repo", "Repo is not available. Open it outside of a bubble first.")
      else ("ok", "")) target

/-- `validate_relay_target` makes no `registry.register` call anywhere in
its body (it only constructs the registry and parses), so the trace of
register invocations in the relay validation path is empty. -/
def validateRelayRegisterCalls (env : ParseEnv) (reg : RegIface)
    (fs : List Char → Bool) (target : List Char) :
    (String × String) × List (List Char × List Char) :=
  (validateRelayFull env reg fs target, [])

/-! ## `bubble/repo_registry.py` — `RepoRegistry` state and `register` -/

/-- One value of the unambiguous map (`{"owner": …, "repo": …, "last_used": …}`). -/
structure RepoEntry where
  owner : List Char
  repo : List Char
  lastUsed : List Char
deriving DecidableEq

/-- The in-memory state of `RepoRegistry`: the unambiguous map `_repos`
and the ambiguous map `_ambiguous`, as insertion-ordered association
lists (Python dicts preserve insertion order). -/
structure RepoRegState where
  repos : List (List Char × RepoEntry)
  ambiguous : List (List Char × List (List Char))
deriving DecidableEq

/-- Dictionary lookup on an insertion-ordered association list. -/
def lookupA {κ β : Type} [BEq κ] (l : List (κ × β)) (k : κ) : Option β :=
  (l.find? (fun p => p.1 == k)).map (fun p => p.2)

/-- Dictionary update of an existing key, keeping its position. -/
def updateA {κ β : Type} [BEq κ] (l : List (κ × β)) (k : κ) (v : β) :
    List (κ × β) :=
  l.map (fun p => if p.1 == k then (p.1, v) else p)

/-- Dictionary `del`. -/
def removeA {κ β : Type} [BEq κ] (l : List (κ × β)) (k : κ) :
    List (κ × β) :=
  l.filter (fun p => ¬ p.1 == k)

/-- Dictionary `d[k] = v`: update in place, or append a new key at the
end (insertion order). -/
def setA {κ β : Type} [BEq κ] (l : List (κ × β)) (k : κ) (v : β) :
    List (κ × β) :=
  if (lookupA l k).isSome then updateA l k v else l ++ [(k, v)]

/-- `RepoRegistry.register(owner, repo)` at timestamp `now`
(`datetime.now(timezone.utc).isoformat()`), returning the new state. -/
def registerRepo (now : List Char) (st : RepoRegState) (owner repo : List Char) :
    RepoRegState :=
  let short := toLowerL repo
  let orgRepo := owner ++ '/' :: repo
  match lookupA st.repos short with
  | some e =>
    let exOrg := e.owner ++ '/' :: e.repo
    if exOrg = orgRepo then
      { st with repos := updateA st.repos short ⟨e.owner, e.repo, now⟩ }
    else
      let base := (lookupA st.ambiguous short).getD [exOrg]
      let entry := if orgRepo ∈ base then base else base ++ [orgRepo]
      { repos := removeA st.repos short, ambiguous := setA st.ambiguous short entry }
  | none =>
    match lookupA st.ambiguous short with
    | some lst =>
      let entry := if orgRepo ∈ lst then lst else lst ++ [orgRepo]
      { st with ambiguous := setA st.ambiguous short entry }
    | none =>
      { st with repos := st.repos ++ [(short, ⟨owner, repo, now⟩)] }

/-- `RepoRegistry.resolve(short_name)`: `None` when ambiguous or unknown. -/
def resolveRepo (st : RepoRegState) (short : List Char) :
    Option (List Char × List Char) :=
  let lower := toLowerL short
  if (lookupA st.ambiguous lower).isSome then none
  else (lookupA st.repos lower).map (fun e => (e.owner, e.repo))

/-- `RepoRegistry.is_ambiguous`. -/
def isAmbiguousRepo (st : RepoRegState) (short : List Char) : Bool :=
  (lookupA st.ambiguous (toLowerL short)).isSome

/-- `RepoRegistry.get_ambiguous_options`. -/
def ambiguousOptionsRepo (st : RepoRegState) (short : List Char) :
    List (List Char) :=
  (lookupA st.ambiguous (toLowerL short)).getD []

/-- The `RegIface` view of a `RepoRegistry` state. -/
def regIfaceOf (st : RepoRegState) : RegIface :=
  ⟨resolveRepo st, isAmbiguousRepo st, ambiguousOptionsRepo st⟩

/-- The parse-and-register step of the CLI `open` command
(`cli.py`): build the registry, parse the target, and on success call
`registry.register(t.owner, t.repo)`.  The third component is the trace
of `register` invocations. -/
def cliOpenParseStep (env : ParseEnv) (now : List Char) (st : RepoRegState)
    (raw : List Char) :
    Except String (Target × RepoRegState × List (List Char × List Char)) :=
  match parseTarget env (regIfaceOf st) raw with
  | .error e => .error e
  | .ok t => .ok (t, registerRepo now st t.owner t.repo, [(t.owner, t.repo)])

/-- A `ParseEnv` for inputs that touch neither local paths nor the
current directory. -/
def trivialEnv : ParseEnv :=
  ⟨fun _ => .error "not a git repository.", none⟩

/-- The empty registry state (fresh `repos.json`). -/
def emptyRegState : RepoRegState := ⟨[], []⟩

/-! ## `bubble/remote.py` — `RemoteHost` -/

/-- `@dataclass RemoteHost`: hostname, optional user, port (default 22). -/
structure RemoteHost where
  hostname : List Char
  user : Option (List Char)
  port : Int
deriving DecidableEq

/-- `_SAFE_NAME_RE`: `^[a-zA-Z0-9_][a-zA-Z0-9._-]*$`. -/
def safeNameOk (s : List Char) : Bool :=
  match s with
  | [] => false
  | c :: rest =>
    (c.isAlpha || c.isDigit || c = '_') &&
      rest.all (fun x => x.isAlpha || x.isDigit || x = '.' || x = '_' || x = '-')

/-- Python `s.rsplit(sep, 1)` for a one-character separator: split at the
last occurrence; `none` when the separator is absent. -/
def rsplitOnce (sep : Char) (s : List Char) : Option (List Char × List Char) :=
  match s.reverse.dropWhile (fun c => ¬ c = sep) with
  | [] => none
  | _ :: pre => some (pre.reverse, (s.reverse.takeWhile (fun c => ¬ c = sep)).reverse)

/-- The tail of `RemoteHost.parse` after user/port extraction: hostname
non-empty and safe, user (when non-empty) safe. -/
def parseRemoteHostTail (user : Option (List Char)) (host : List Char)
    (port : Int) : Except String RemoteHost :=
  if host = [] then .error "Empty hostname in SSH spec"
  else if ¬ safeNameOk host then .error "Invalid hostname"
  else if ¬ user.getD [] = [] ∧ ¬ safeNameOk (user.getD []) = true then
    -- `if user and not _SAFE_NAME_RE.match(user)`: `None` and `""` are falsy
    .error "Invalid user"
  else .ok ⟨host, user, port⟩

/-- The `:port` extraction step of `RemoteHost.parse`: `int(port_str)`
via `pyIntParse`, then the 1..65535 range check. -/
def parseRemotePort (user : Option (List Char)) (spec1 : List Char) :
    Except String RemoteHost :=
  if ':' ∈ spec1 then
    match rsplitOnce ':' spec1 with
    | some (hostPart, portStr) =>
      match pyIntParse portStr with
      | none => .error "Invalid port in SSH spec"
      | some port =>
        if 1 ≤ port ∧ port ≤ 65535 then parseRemoteHostTail user hostPart port
        else .error "Port out of range"
    | none => .error "unreachable: separator present"
  else parseRemoteHostTail user spec1 22

/-- `RemoteHost.parse(spec)`: extract `user@`, then `:port`, then
validate. -/
def parseRemoteHost (spec : List Char) : Except String RemoteHost :=
  if '@' ∈ spec then
    match rsplitOnce '@' spec with
    | some (u, rest) =>
      if u = [] then .error "Empty user in SSH spec"
      else parseRemotePort (some u) rest
    | none => .error "unreachable: separator present"
  else parseRemotePort none spec

/-- `RemoteHost.ssh_destination`: `user@host` when a user is set
(Python truthiness: the empty string counts as unset). -/
def sshDestination (h : RemoteHost) : List Char :=
  match h.user with
  | some u => if ¬ u = [] then u ++ '@' :: h.hostname else h.hostname
  | none => h.hostname

/-- `RemoteHost.spec_string()`: the destination, plus `:port` only when
the port is not the default 22. -/
def specString (h : RemoteHost) : List Char :=
  sshDestination h ++ (if ¬ h.port = 22 then ':' :: intRepr h.port else [])

/-! ## `bubble/relay.py` — the `RateLimiter` -/

/-- `MAX_TRACKED_CONTAINERS`. -/
def MAX_TRACKED_CONTAINERS : Nat := 100

/-- `GLOBAL_RATE_LIMIT_PER_HOUR`. -/
def GLOBAL_RATE_LIMIT_PER_HOUR : Nat := 30

/-- The state of a `RateLimiter`: `_requests` (container → timestamp
deque; a Python dict in insertion order) and `_global`.  Timestamps are
integer `time.time()` seconds. -/
structure RL where
  requests : List (String × List Int)
  glob : List Int
deriving DecidableEq

/-- Deque pruning `while q and q[0] < now - 3600: q.popleft()`. -/
def pruneOld (now : Int) (q : List Int) : List Int :=
  q.dropWhile (fun t => t < now - 3600)

/-- `self._requests[k][-1] if self._requests[k] else 0`. -/
def lastD (q : List Int) : Int := q.getLastD 0

/-- Python `min(iter, key=…)` accumulator: keeps the first element whose
key is minimal (a later key replaces only when strictly smaller). -/
def oldestKeyAux (k : String) (v : Int) : List (String × List Int) → String
  | [] => k
  | (k', q') :: rest =>
    if lastD q' < v then oldestKeyAux k' (lastD q') rest
    else oldestKeyAux k v rest

/-- `min(self._requests, key=lambda k: …[-1] if … else 0)` over the dict
in insertion order. -/
def oldestKey : List (String × List Int) → Option String
  | [] => none
  | (k, q) :: rest => some (oldestKeyAux k (lastD q) rest)

/-- `RateLimiter.check(container)` at time `now`: whether the request is
allowed, and the new state — mirroring the source step by step (prune
global, global cap, LRU eviction, `setdefault`, per-deque prune, the
three windows, append on success). -/
def rlCheck (s : RL) (container : String) (now : Int) : Bool × RL :=
  let glob1 := pruneOld now s.glob
  if glob1.length ≥ GLOBAL_RATE_LIMIT_PER_HOUR then
    (false, ⟨s.requests, glob1⟩)
  else
    let reqs1 :=
      if (lookupA s.requests container).isNone ∧
          s.requests.length ≥ MAX_TRACKED_CONTAINERS then
        match oldestKey s.requests with
        | some k0 => removeA s.requests k0
        | none => s.requests
      else s.requests
    let reqs2 := if (lookupA reqs1 container).isSome then reqs1
      else reqs1 ++ [(container, [])]
    let q1 := pruneOld now ((lookupA reqs2 container).getD [])
    let last60 := (q1.filter (fun t => t > now - 60)).length
    let last600 := (q1.filter (fun t => t > now - 600)).length
    if last60 ≥ 3 ∨ last600 ≥ 10 ∨ q1.length ≥ 20 then
      (false, ⟨updateA reqs2 container q1, glob1⟩)
    else
      (true, ⟨updateA reqs2 container (q1 ++ [now]), glob1 ++ [now]⟩)

/-- Run a sequence of `(container, time)` check calls from a state. -/
def rlRun (s : RL) : List (String × Int) → RL
  | [] => s
  | (c, t) :: rest => rlRun (rlCheck s c t).2 rest

/-- The sub-list of check calls on which `check` returned true. -/
def rlGrants (s : RL) : List (String × Int) → List (String × Int)
  | [] => []
  | (c, t) :: rest =>
    (if (rlCheck s c t).1 then [(c, t)] else []) ++ rlGrants (rlCheck s c t).2 rest

/-- The initial `RateLimiter()` state. -/
def rlInit : RL := ⟨[], []⟩

/-- The grant timestamps of one container in a grant list. -/
def cGrants (gs : List (String × Int)) (c : String) : List Int :=
  (gs.filter (fun e => e.1 == c)).map (fun e => e.2)

/-- The deque currently tracked for a container (empty if untracked). -/
def dequeOf (s : RL) (c : String) : List Int :=
  (lookupA s.requests c).getD []

/-- Membership of a timestamp in the half-open window `(w, w + d]`. -/
def inWindow (w d t : Int) : Bool := decide (w < t ∧ t ≤ w + d)

/-- The invariant tying a `RateLimiter` state to its grant history `gs`
at current time `T`: the global deque is a suffix of all grant
timestamps whose dropped prefix is expired; tracked keys are distinct;
every tracked deque is a nonempty suffix of that container's grant
timestamps, bounded by its last element and by `T`, and the grants not
in the deque are expired; all grants happened by `T`. -/
structure RLInv (gs : List (String × Int)) (T : Int) (s : RL) : Prop where
  glob_suffix : ∃ k, k ≤ (gs.map (fun e => e.2)).length ∧
    s.glob = (gs.map (fun e => e.2)).drop k ∧
    ∀ x ∈ (gs.map (fun e => e.2)).take k, x < T - 3600
  keys_nodup : (s.requests.map (fun p => p.1)).Nodup
  deque_nonempty : ∀ p ∈ s.requests, ¬ p.2 = []
  deque_le_last : ∀ p ∈ s.requests, ∀ x ∈ p.2, x ≤ lastD p.2
  deque_le_time : ∀ p ∈ s.requests, ∀ x ∈ p.2, x ≤ T
  grants_suffix : ∀ c : String, ∃ d, cGrants gs c = d ++ dequeOf s c ∧
    ∀ x ∈ d, x ≤ T - 3600
  times_le : ∀ e ∈ gs, e.2 ≤ T

/-! # Theorems -/

/-! ## Claim C3: `bare_repo_path` ignores the owner segment -/

/-- C3: two `org_repo` strings with the same final `/`-segment map to the
same bare-repo path, so `repo_is_known` answers the same for both on every
filesystem: once any owner's mirror of a repo name exists, the
`repo_is_known` check in `validate_relay_target` passes for that repo name
under every owner. -/
theorem bareRepoPath_ignores_owner (a b : List Char)
    (h : (splitOnChar '/' a).getLastD [] = (splitOnChar '/' b).getLastD []) :
    bareRepoPath a = bareRepoPath b ∧
      ∀ fs : List Char → Bool, repoIsKnown fs a = repoIsKnown fs b := by
  have hp : bareRepoPath a = bareRepoPath b := by
    unfold bareRepoPath
    rw [h]
  exact ⟨hp, fun fs => by unfold repoIsKnown; rw [hp]⟩

/-- Witness for C3 at `leanprover/lean4` and `someoneelse/lean4`. -/
theorem bareRepoPath_ignores_owner_witness :
    bareRepoPath "leanprover/lean4".toList = bareRepoPath "someoneelse/lean4".toList ∧
      ∀ fs : List Char → Bool,
        repoIsKnown fs "leanprover/lean4".toList = repoIsKnown fs "someoneelse/lean4".toList :=
  bareRepoPath_ignores_owner _ _ (by decide)

/-! ## Claim C1: forbidden relay targets are rejected before any spawn -/

/-- C1: for every relay target that starts with `.`, `/`, `~` or `-`, or
contains `..` or `--path`, or contains a shell metacharacter from
`;|&$\x60\\(){}[]!#`, `validate_relay_target` returns status `"error"`
(whatever the registry- and filesystem-dependent tail `rest` would do),
the connection handler never spawns the `bubble open` subprocess, and
whenever the handler reaches validation (token accepted, not rate
limited) its response status is `"error"`. -/
theorem relay_rejects_forbidden_targets (rest : List Char → String × String)
    (tokenLookup : String → Option String) (rateCheck : String → Bool)
    (token : String) (target : List Char) (h : relayForbiddenShape target) :
    (validateRelayTarget rest target).1 = "error" ∧
      (handleRelayConnection tokenLookup rateCheck rest target token).2 = false ∧
      (∀ container, token ≠ "" → tokenLookup (token.take 128) = some container →
        rateCheck container = true →
        (handleRelayConnection tokenLookup rateCheck rest target token).1.1 = "error") := by
  have herr : (validateRelayTarget rest target).1 = "error" := by
    unfold validateRelayTarget
    split
    · rfl
    · split
      · rfl
      · split
        · rfl
        · split
          · rfl
          · split
            · rfl
            · split
              · rfl
              · split
                · rfl
                · -- all pre-parse checks passed: contradicts `relayForbiddenShape`
                  rename_i h3 h4 h5 h6 h7
                  exfalso
                  rcases h with h' | h' | h' | h' | h' | h' | ⟨c, hc, hct⟩
                  · exact h3 (Or.inl h')
                  · exact h3 (Or.inr (Or.inl h'))
                  · exact h3 (Or.inr (Or.inr h'))
                  · exact h4 h'
                  · exact h7 h'
                  · exact h5 h'
                  · exact h6 (List.any_eq_true.2 ⟨c, hct, by
                      simp only [List.contains_iff_exists_mem_beq]
                      exact ⟨c, hc, by simp⟩⟩)
  refine ⟨herr, ?_, ?_⟩
  · unfold handleRelayConnection
    split
    · rfl
    · cases hl : tokenLookup (token.take 128) with
      | none => rfl
      | some container =>
        split
        · rfl
        · simp only [herr]
          split <;> rfl
  · intro container htok hlook hrate
    unfold handleRelayConnection
    rw [if_neg (by simpa using htok)]
    simp only [hlook]
    rw [if_neg (by simp [hrate])]
    simp [herr]

/-- Witness for C1 at the concrete forbidden target `../x` with an
accepting token registry and rate limiter. -/
theorem relay_rejects_forbidden_targets_witness :
    (validateRelayTarget (fun _ => ("ok", "")) "../x".toList).1 = "error" ∧
      (handleRelayConnection (fun s => if s = "tok" then some "cont" else none)
        (fun _ => true) (fun _ => ("ok", "")) "../x".toList "tok").2 = false ∧
      (∀ container, "tok" ≠ "" →
        (if ("tok" : String).take 128 = "tok" then some "cont" else none) = some container →
        (fun _ => true : String → Bool) container = true →
        (handleRelayConnection (fun s => if s = "tok" then some "cont" else none)
          (fun _ => true) (fun _ => ("ok", "")) "../x".toList "tok").1.1 = "error") :=
  relay_rejects_forbidden_targets (fun _ => ("ok", ""))
    (fun s => if s = "tok" then some "cont" else none) (fun _ => true) "tok"
    "../x".toList (by decide)

/-! ## Claim C5: empty allowlist still drops everything, DNS restricted -/

set_option maxRecDepth 40000 in
/-- C5: with an empty domain list the generated script still sets the IPv6
OUTPUT policy to DROP, its only `-P OUTPUT` policy lines are IPv6 DROP,
the temporary IPv4 ACCEPT, and the final IPv4 DROP (in that order, so the
IPv4 policy ends as DROP, three lines from the end), and its only ACCEPT
rules are loopback, ESTABLISHED/RELATED, and DNS (udp and tcp port 53) to
the configured resolver and the resolvectl upstreams — DNS to arbitrary
destinations is never allowed.  `apply_allowlist` executes exactly this
script. -/
theorem allowlist_empty_domains_restricts_dns :
    "ip6tables -P OUTPUT DROP" ∈ buildAllowlistLines [] ∧
    (buildAllowlistLines []).filter (fun l => "-P OUTPUT".toList <:+: l.toList) =
      ["ip6tables -P OUTPUT DROP", "iptables -P OUTPUT ACCEPT", "iptables -P OUTPUT DROP"] ∧
    (buildAllowlistLines []).getD ((buildAllowlistLines []).length - 3) "" =
      "iptables -P OUTPUT DROP" ∧
    (buildAllowlistLines []).filter (fun l => "-j ACCEPT".toList <:+: l.toList) =
      ["ip6tables -A OUTPUT -o lo -j ACCEPT",
       "iptables -A OUTPUT -o lo -j ACCEPT",
       "iptables -A OUTPUT -m state --state ESTABLISHED,RELATED -j ACCEPT",
       "  iptables -A OUTPUT -d $RESOLVER -p udp --dport 53 -j ACCEPT",
       "  iptables -A OUTPUT -d $RESOLVER -p tcp --dport 53 -j ACCEPT",
       "  iptables -A OUTPUT -d $UPSTREAM -p udp --dport 53 -j ACCEPT",
       "  iptables -A OUTPUT -d $UPSTREAM -p tcp --dport 53 -j ACCEPT"] ∧
    applyAllowlist [] = .ok (buildAllowlistScript []) := by
  refine ⟨?_, by decide, by decide, by decide, rfl⟩
  decide

/-! ## Claim C6: `RepoRegistry._save` does not use temp-file + rename -/

/-- C6 (code bug): `RepoRegistry._save` persists `repos.json` with a
direct `write_text` to the final path — its operation trace contains no
rename and no temporary file, contradicting the spec's
"temp-file + rename" persistence contract (which sibling persistence code
such as `lifecycle.py` and the relay token store does follow).  An
interruption mid-write can therefore destroy the previously persisted
state. -/
theorem repoRegistry_save_writes_directly :
    ∀ doc : List Char,
      repoRegistrySaveOps doc =
        [.mkdirParents "~/.bubble".toList, .writeText REPOS_FILE doc] ∧
      (repoRegistrySaveOps doc).filter FsOp.isRename = [] ∧
      FsOp.writeText REPOS_FILE doc ∈ repoRegistrySaveOps doc := by
  intro doc
  refine ⟨rfl, rfl, ?_⟩
  simp [repoRegistrySaveOps]

/-! ## Helper lemmas about digits and `pyIntParse` -/

theorem dropWhile_eq_self_of_all {p : Char → Bool} {l : List Char}
    (h : ∀ c ∈ l, p c = false) : l.dropWhile p = l := by
  cases l with
  | nil => rfl
  | cons c t => simp [List.dropWhile_cons, h c (List.mem_cons_self c t)]

theorem pyStrip_eq_self {s : List Char} (h : ∀ c ∈ s, isPySpace c = false) :
    pyStrip s = s := by
  unfold pyStrip
  rw [dropWhile_eq_self_of_all h,
    dropWhile_eq_self_of_all (fun c hc => h c (List.mem_reverse.mp hc)),
    List.reverse_reverse]

theorem isPySpace_eq_false_of_isDigit {c : Char} (h : c.isDigit = true) :
    isPySpace c = false := by
  by_contra hc
  rw [Bool.not_eq_false] at hc
  simp only [isPySpace, Bool.or_eq_true, decide_eq_true_eq] at hc
  rcases hc with ((((h' | h') | h') | h') | h') | h' <;> subst h' <;> simp at h

theorem ne_of_isDigit {c x : Char} (h : c.isDigit = true)
    (hx : x.isDigit = false) : ¬ c = x := by
  intro he
  subst he
  rw [h] at hx
  exact Bool.noConfusion hx

theorem noDoubleUnderscore_of_digits {l : List Char}
    (h : ∀ c ∈ l, c.isDigit = true) : noDoubleUnderscore l = true := by
  induction l with
  | nil => rfl
  | cons c t ih =>
    cases t with
    | nil => rfl
    | cons d t' =>
      have hcne : ¬ c = '_' := @ne_of_isDigit c '_' (h c (by simp)) (by decide)
      simp only [noDoubleUnderscore, Bool.and_eq_true, decide_eq_true_eq]
      refine ⟨by simp [hcne], ?_⟩
      exact ih (fun x hx => h x (List.mem_cons_of_mem c hx))

theorem pyDigitsValid_of_digits {l : List Char}
    (h : ∀ c ∈ l, c.isDigit = true) (hne : ¬ l = []) : pyDigitsValid l = true := by
  unfold pyDigitsValid
  simp only [Bool.and_eq_true, decide_eq_true_eq]
  refine ⟨⟨⟨⟨hne, ?_⟩, ?_⟩, ?_⟩, noDoubleUnderscore_of_digits h⟩
  · exact List.all_eq_true.2 fun c hc => by simp [h c hc]
  · cases l with
    | nil => simp
    | cons c t =>
      simp only [List.head?_cons, Option.some.injEq]
      exact @ne_of_isDigit c '_' (h c (by simp)) (by decide)
  · cases hl : l.getLast? with
    | none => simp
    | some c =>
      have hmem : c ∈ l := by
        obtain ⟨hne', heq⟩ := List.mem_getLast?_eq_getLast (by rw [hl]; rfl)
        rw [heq]
        exact List.getLast_mem hne'
      simp only [Option.some.injEq]
      exact @ne_of_isDigit c '_' (h c hmem) (by decide)

theorem pyIntSign_of_digit {c : Char} {t : List Char} (hc : c.isDigit = true) :
    pyIntSign (c :: t) = (1, c :: t) := by
  unfold pyIntSign
  rw [if_neg, if_neg]
  · simp only [List.head?_cons, Option.some.injEq]
    exact @ne_of_isDigit c '-' hc (by decide)
  · simp only [List.head?_cons, Option.some.injEq]
    exact @ne_of_isDigit c '+' hc (by decide)

theorem filter_no_underscore_of_digits {l : List Char}
    (h : ∀ c ∈ l, c.isDigit = true) :
    l.filter (fun c => ¬ c = '_') = l := by
  refine List.filter_eq_self.2 (fun x hx => ?_)
  simpa using @ne_of_isDigit x '_' (h x hx) (by decide)

theorem pyIntParse_of_digits {l : List Char}
    (h : ∀ c ∈ l, c.isDigit = true) (hne : ¬ l = []) :
    pyIntParse l = some (digitsVal l) := by
  have hstrip : pyStrip l = l :=
    pyStrip_eq_self (fun c hc => isPySpace_eq_false_of_isDigit (h c hc))
  cases l with
  | nil => exact absurd rfl hne
  | cons c t =>
    have hsign : pyIntSign (pyStrip (c :: t)) = (1, c :: t) := by
      rw [hstrip]
      exact pyIntSign_of_digit (h c (by simp))
    unfold pyIntParse
    rw [hsign]
    rw [if_pos (pyDigitsValid_of_digits h hne)]
    rw [filter_no_underscore_of_digits h]
    simp

theorem digitsVal_append_singleton (l : List Char) (c : Char) :
    digitsVal (l ++ [c]) = 10 * digitsVal l + (c.toNat - 48) := by
  unfold digitsVal
  rw [List.foldl_append]
  rfl

theorem digitChar_spec {d : Nat} (h : d < 10) :
    (digitChar d).isDigit = true ∧ (digitChar d).toNat = 48 + d := by
  interval_cases d <;> exact ⟨by decide, by decide⟩

theorem natDigitsAux_spec : ∀ fuel n, n < fuel →
    (¬ natDigitsAux fuel n = [] ∧
     (∀ c ∈ natDigitsAux fuel n, c.isDigit = true) ∧
     digitsVal (natDigitsAux fuel n) = n) := by
  intro fuel
  induction fuel with
  | zero => intro n hn; omega
  | succ fuel ih =>
    intro n hn
    by_cases h10 : n < 10
    · refine ⟨by simp [natDigitsAux, h10], ?_, ?_⟩
      · intro c hc
        simp only [natDigitsAux, if_pos h10, List.mem_singleton] at hc
        subst hc
        exact (digitChar_spec h10).1
      · simp only [natDigitsAux, if_pos h10]
        show digitsVal ([] ++ [digitChar n]) = n
        rw [digitsVal_append_singleton, (digitChar_spec h10).2]
        simp [digitsVal]
    · have hdiv : n / 10 < fuel := by
        have h1 : n / 10 < n := Nat.div_lt_self (by omega) (by omega)
        omega
      obtain ⟨ih1, ih2, ih3⟩ := ih (n / 10) hdiv
      refine ⟨by simp [natDigitsAux, h10], ?_, ?_⟩
      · intro c hc
        simp only [natDigitsAux, if_neg h10, List.mem_append, List.mem_singleton] at hc
        rcases hc with hc | hc
        · exact ih2 c hc
        · subst hc
          exact (digitChar_spec (Nat.mod_lt n (by omega))).1
      · simp only [natDigitsAux, if_neg h10]
        rw [digitsVal_append_singleton, ih3,
          (digitChar_spec (Nat.mod_lt n (by omega))).2]
        omega

theorem natRepr_spec (n : Nat) :
    ¬ natRepr n = [] ∧ (∀ c ∈ natRepr n, c.isDigit = true) ∧
      digitsVal (natRepr n) = n :=
  natDigitsAux_spec (n + 1) n (Nat.lt_succ_self n)

theorem pyIntParse_natRepr (n : Nat) : pyIntParse (natRepr n) = some n := by
  obtain ⟨h1, h2, h3⟩ := natRepr_spec n
  rw [pyIntParse_of_digits h2 h1, h3]

theorem pyIntParse_intRepr (n : Int) : pyIntParse (intRepr n) = some n := by
  unfold intRepr
  split
  · -- negative: '-' :: digits
    rename_i hneg
    obtain ⟨h1, h2, h3⟩ := natRepr_spec n.natAbs
    have hstrip : pyStrip ('-' :: natRepr n.natAbs) = '-' :: natRepr n.natAbs := by
      refine pyStrip_eq_self ?_
      intro c hc
      rcases List.mem_cons.mp hc with hc | hc
      · subst hc; decide
      · exact isPySpace_eq_false_of_isDigit (h2 c hc)
    have hsign : pyIntSign (pyStrip ('-' :: natRepr n.natAbs)) =
        (-1, natRepr n.natAbs) := by
      rw [hstrip]
      unfold pyIntSign
      rw [if_neg (by simp), if_pos (by simp)]
      rfl
    unfold pyIntParse
    rw [hsign]
    rw [if_pos (pyDigitsValid_of_digits h2 h1)]
    rw [filter_no_underscore_of_digits h2, h3]
    exact congrArg some (by omega)
  · rename_i hpos
    rw [pyIntParse_natRepr]
    exact congrArg some (by omega)

theorem pyIntParse_isDigits {s : List Char} (h : isDigits s = true) :
    (pyIntParse s).isSome = true := by
  unfold isDigits at h
  simp only [Bool.and_eq_true, decide_eq_true_eq, List.all_eq_true] at h
  rw [pyIntParse_of_digits (fun c hc => h.2 c hc) h.1]
  rfl

/-! ## Claim C4: the parser itself does not enforce the name regex -/

/-- C8 (counterexample): the original claim fails in both directions.
`parse_target` accepts `a/b/pull/0` with `kind = "pr"` and `ref = "0"`,
which is not strictly positive; and, with the current directory a
GitHub checkout, it accepts the bare target `²` — `'²'.isdigit()` is
true — returning `kind = "pr"` and `ref = "²"`, which `int()` rejects
(`int('²')` raises `ValueError`). -/
theorem parse_target_pr_ref_counterexample :
    (parseTarget trivialEnv (regIfaceOf emptyRegState) "a/b/pull/0".toList).toOption =
      some ⟨"a".toList, "b".toList, "pr", "0".toList, "a/b/pull/0".toList, []⟩ ∧
    ¬ (0 : Int) > 0 ∧
    (parseTarget ⟨fun _ => .error "not a git repository.",
        some ("o".toList, "r".toList)⟩ (regIfaceOf emptyRegState)
        "²".toList).toOption =
      some ⟨"o".toList, "r".toList, "pr", "²".toList, "²".toList, []⟩ ∧
    pyIsdigitStr "²".toList = true ∧
    pyIntParse "²".toList = none :=
  ⟨by decide, by decide, by decide, by decide, by decide⟩

set_option maxHeartbeats 2000000 in
/-- C8 (amended): for every input on which `parse_target` succeeds with
`kind = "pr"`, the `ref` is either the canonical decimal representation
`str(int(N))` of a Python integer — the `pull/N` branches, which accept
zero and negative components — or a nonempty string of `str.isdigit`
characters — the bare-number branch, whose ref `int()` need not accept
(`str.isdigit` admits digit characters such as `²` that are not decimal
digits). -/
theorem parse_target_pr_ref_digits (env : ParseEnv) (reg : RegIface)
    (raw : List Char) (t : Target) (h : parseTarget env reg raw = .ok t)
    (hk : t.kind = "pr") :
    (∃ n : Int, t.ref = intRepr n) ∨ pyIsdigitStr t.ref = true := by
  have hshort : ∀ (parts : List (List Char)) (original : List Char),
      parseShortName reg parts original = .ok t →
      (∃ n : Int, t.ref = intRepr n) ∨ pyIsdigitStr t.ref = true := by
    intro parts original h
    unfold parseShortName at h
    repeat' split at h
    all_goals first
      | exact Except.noConfusion h
      | (injection h with h'; subst h'; exact absurd hk (ne_of_beq_false rfl))
      | (injection h with h'; subst h'; exact Or.inl ⟨_, rfl⟩)
  have hparts : ∀ (parts : List (List Char)) (original : List Char),
      parsePartsTarget reg parts original = .ok t →
      (∃ n : Int, t.ref = intRepr n) ∨ pyIsdigitStr t.ref = true := by
    intro parts original h
    unfold parsePartsTarget at h
    repeat' split at h
    all_goals first
      | exact Except.noConfusion h
      | (injection h with h'; subst h'; exact absurd hk (ne_of_beq_false rfl))
      | (injection h with h'; subst h'; exact Or.inl ⟨_, rfl⟩)
      | exact hshort _ _ h
  simp only [parseTarget] at h
  repeat' split at h
  all_goals first
    | exact Except.noConfusion h
    | (injection h with h'; subst h'; exact absurd hk (ne_of_beq_false rfl))
    | (injection h with h'; subst h'; exact Or.inr (by assumption))
    | exact hparts _ _ h

/-- Witness for the amended C8 at `leanprover/lean4/pull/42`. -/
theorem parse_target_pr_ref_digits_witness :
    (∃ n : Int, Target.ref ⟨"leanprover".toList, "lean4".toList, "pr",
        "42".toList, "leanprover/lean4/pull/42".toList, []⟩ = intRepr n) ∨
      pyIsdigitStr (Target.ref ⟨"leanprover".toList, "lean4".toList, "pr",
        "42".toList, "leanprover/lean4/pull/42".toList, []⟩) = true :=
  parse_target_pr_ref_digits trivialEnv (regIfaceOf emptyRegState)
    "leanprover/lean4/pull/42".toList _ rfl rfl

/-! ## Claim C9: who calls `registry.register` -/

theorem lookupA_append_single {κ β : Type} [BEq κ] [LawfulBEq κ]
    (l : List (κ × β)) (k : κ) (v : β) (h : lookupA l k = none) :
    lookupA (l ++ [(k, v)]) k = some v := by
  induction l with
  | nil => simp [lookupA]
  | cons p rest ih =>
    by_cases hpk : (p.1 == k) = true
    · exfalso
      unfold lookupA at h
      rw [List.find?_cons_of_pos (p := fun q : κ × β => q.1 == k) _ hpk] at h
      simp at h
    · unfold lookupA at h ⊢
      rw [List.find?_cons_of_neg _ (by simpa using hpk)] at h
      rw [List.cons_append, List.find?_cons_of_neg _ (by simpa using hpk)]
      exact ih h

theorem lookupA_removeA {κ β : Type} [BEq κ] [LawfulBEq κ]
    (l : List (κ × β)) (k : κ) :
    lookupA (removeA l k) k = none := by
  unfold lookupA
  rw [Option.map_eq_none']
  rw [List.find?_eq_none]
  intro p hp
  unfold removeA at hp
  have := List.of_mem_filter hp
  simpa using this

theorem lookupA_updateA {κ β : Type} [BEq κ] [LawfulBEq κ]
    (l : List (κ × β)) (k : κ) (v : β) (h : ¬ lookupA l k = none) :
    lookupA (updateA l k v) k = some v := by
  induction l with
  | nil => simp [lookupA] at h
  | cons p rest ih =>
    unfold updateA
    simp only [List.map_cons]
    by_cases hpk : (p.1 == k) = true
    · rw [if_pos hpk]
      unfold lookupA
      rw [List.find?_cons_of_pos (p := fun q : κ × β => q.1 == k) _
        (show ((p.1, v).1 == k) = true from hpk)]
      rfl
    · rw [if_neg hpk]
      unfold lookupA at h ⊢
      rw [List.find?_cons_of_neg (p := fun q : κ × β => q.1 == k) _ (by simpa using hpk)] at h
      rw [List.find?_cons_of_neg (p := fun q : κ × β => q.1 == k) _ (by simpa using hpk)]
      exact ih h

theorem lookupA_setA {κ β : Type} [BEq κ] [LawfulBEq κ]
    (l : List (κ × β)) (k : κ) (v : β) : lookupA (setA l k v) k = some v := by
  unfold setA
  split
  · rename_i hsome
    exact lookupA_updateA l k v (by simp [Option.isSome_iff_ne_none] at hsome; exact hsome)
  · rename_i hnone
    exact lookupA_append_single l k v (by simpa using hnone)

/-- C9 (counterexample): in the relay validation path
(`validate_relay_target`), the target `alice/proj` parses successfully but
no `registry.register` call occurs — the register-call trace of the relay
validation is empty, so "every successful parse also calls
`registry.register`" fails for the relay path. -/
theorem relay_parse_without_register_counterexample :
    (parseTarget trivialEnv (regIfaceOf emptyRegState) "alice/proj".toList).toOption =
      some ⟨"alice".toList, "proj".toList, "repo", [], "alice/proj".toList, []⟩ ∧
    (validateRelayRegisterCalls trivialEnv (regIfaceOf emptyRegState)
      (fun _ => true) "alice/proj".toList).2 = [] :=
  ⟨by decide, rfl⟩

/-- C9 (amended): in the CLI `open` flow, every successful parse is
followed by exactly one `registry.register(t.owner, t.repo)` call with
the parsed owner and repo ((1)); and `register` itself learns a fresh
short name as unambiguous ((2)) while a registration with a different
owner for an already-learned short name removes the cached unambiguous
entry and records both candidates in the ambiguous list ((3)).  The
relay's `validate_relay_target` parses without registering (see the
counterexample). -/
theorem cli_open_registers_and_register_semantics
    (env : ParseEnv) (now : List Char) (st : RepoRegState) (raw : List Char) :
    (∀ t st' calls, cliOpenParseStep env now st raw = .ok (t, st', calls) →
       calls = [(t.owner, t.repo)] ∧ st' = registerRepo now st t.owner t.repo) ∧
    (∀ owner repo, lookupA st.repos (toLowerL repo) = none →
       lookupA st.ambiguous (toLowerL repo) = none →
       lookupA (registerRepo now st owner repo).repos (toLowerL repo) =
         some ⟨owner, repo, now⟩) ∧
    (∀ owner repo e, lookupA st.repos (toLowerL repo) = some e →
       lookupA st.ambiguous (toLowerL repo) = none →
       ¬ e.owner ++ '/' :: e.repo = owner ++ '/' :: repo →
       lookupA (registerRepo now st owner repo).repos (toLowerL repo) = none ∧
       lookupA (registerRepo now st owner repo).ambiguous (toLowerL repo) =
         some [e.owner ++ '/' :: e.repo, owner ++ '/' :: repo]) := by
  refine ⟨?_, ?_, ?_⟩
  · intro t st' calls h
    unfold cliOpenParseStep at h
    cases hp : parseTarget env (regIfaceOf st) raw with
    | error e => rw [hp] at h; exact Except.noConfusion h
    | ok t0 =>
      rw [hp] at h
      injection h with h'
      injection h' with h1 h2
      injection h2 with h2 h3
      subst h1; subst h2; subst h3
      exact ⟨rfl, rfl⟩
  · intro owner repo hrep hamb
    simp only [registerRepo, hrep, hamb]
    exact lookupA_append_single _ _ _ hrep
  · intro owner repo e hrep hamb hne
    simp only [registerRepo, hrep, hamb]
    rw [if_neg hne]
    simp only [Option.getD_none]
    rw [if_neg (by simpa using fun hx => (hne hx.symm).elim)]
    constructor
    · exact lookupA_removeA _ _
    · exact lookupA_setA _ _ _

/-- Witness for the amended C9: concrete run of the CLI parse-and-register
step on a fresh registry, then a conflicting owner for the same short
name. -/
theorem cli_open_registers_and_register_semantics_witness :
    lookupA (registerRepo "t0".toList emptyRegState "alice".toList
        "proj".toList).repos (toLowerL "proj".toList) =
      some ⟨"alice".toList, "proj".toList, "t0".toList⟩ ∧
    (lookupA (registerRepo "t1".toList
        (registerRepo "t0".toList emptyRegState "alice".toList "proj".toList)
        "bob".toList "proj".toList).repos (toLowerL "proj".toList) = none ∧
     lookupA (registerRepo "t1".toList
        (registerRepo "t0".toList emptyRegState "alice".toList "proj".toList)
        "bob".toList "proj".toList).ambiguous (toLowerL "proj".toList) =
      some ["alice/proj".toList, "bob/proj".toList]) :=
  ⟨(cli_open_registers_and_register_semantics trivialEnv "t0".toList
      emptyRegState "x".toList).2.1 "alice".toList "proj".toList
      (by decide) (by decide),
   (cli_open_registers_and_register_semantics trivialEnv "t1".toList
      (registerRepo "t0".toList emptyRegState "alice".toList "proj".toList)
      "x".toList).2.2 "bob".toList "proj".toList ⟨"alice".toList, "proj".toList, "t0".toList⟩
      (by decide) (by decide) (by decide)⟩

/-! ## Claim C7: `RemoteHost.parse` / `spec_string` round trip -/

theorem dropWhile_eq_cons_head {α : Type} {p : α → Bool} {l : List α} {x : α}
    {xs : List α} (h : l.dropWhile p = x :: xs) : p x = false := by
  induction l with
  | nil => simp [List.dropWhile] at h
  | cons c t ih =>
    rw [List.dropWhile_cons] at h
    by_cases hc : p c = true
    · rw [if_pos hc] at h
      exact ih h
    · rw [if_neg hc] at h
      injection h with h1 h2
      subst h1
      simpa using hc

theorem mem_takeWhile_sat {α : Type} {p : α → Bool} {l : List α} {x : α}
    (h : x ∈ l.takeWhile p) : p x = true := by
  induction l with
  | nil => simp [List.takeWhile] at h
  | cons c t ih =>
    rw [List.takeWhile_cons] at h
    by_cases hc : p c = true
    · rw [if_pos hc] at h
      rcases List.mem_cons.mp h with he | he
      · subst he; exact hc
      · exact ih he
    · rw [if_neg hc] at h
      simp at h

theorem dropWhile_append_all {α : Type} {p : α → Bool} {l l' : List α}
    (h : ∀ x ∈ l, p x = true) : (l ++ l').dropWhile p = l'.dropWhile p := by
  induction l with
  | nil => rfl
  | cons c t ih =>
    rw [List.cons_append, List.dropWhile_cons, if_pos (h c (by simp))]
    exact ih (fun x hx => h x (by simp [hx]))

theorem takeWhile_append_all {α : Type} {p : α → Bool} {l l' : List α}
    (h : ∀ x ∈ l, p x = true) : (l ++ l').takeWhile p = l ++ l'.takeWhile p := by
  induction l with
  | nil => rfl
  | cons c t ih =>
    rw [List.cons_append, List.takeWhile_cons, if_pos (h c (by simp))]
    rw [ih (fun x hx => h x (by simp [hx]))]
    rfl

theorem rsplitOnce_eq_some {sep : Char} {s a b : List Char}
    (h : rsplitOnce sep s = some (a, b)) : s = a ++ sep :: b ∧ sep ∉ b := by
  unfold rsplitOnce at h
  cases hd : s.reverse.dropWhile (fun c => ¬ c = sep) with
  | nil => rw [hd] at h; exact Option.noConfusion h
  | cons x pre =>
    rw [hd] at h
    injection h with h'
    rw [Prod.mk.injEq] at h'
    obtain ⟨ha, hb⟩ := h'
    have hx : x = sep := by
      have := dropWhile_eq_cons_head hd
      simpa using this
    have hsplit := List.takeWhile_append_dropWhile
      (p := fun c : Char => ¬ c = sep) (l := s.reverse)
    rw [hd] at hsplit
    constructor
    · have hs : s = (s.reverse.takeWhile (fun c : Char => ¬ c = sep) ++ x :: pre).reverse := by
        rw [hsplit, List.reverse_reverse]
      rw [hs, List.reverse_append, List.reverse_cons, ha, hb, hx]
      simp
    · intro hmem
      rw [← hb] at hmem
      have := mem_takeWhile_sat (List.mem_reverse.mp hmem)
      simp at this

theorem rsplitOnce_append {sep : Char} {a b : List Char} (hb : sep ∉ b) :
    rsplitOnce sep (a ++ sep :: b) = some (a, b) := by
  unfold rsplitOnce
  have hrev : (a ++ sep :: b).reverse = b.reverse ++ sep :: a.reverse := by
    simp
  rw [hrev]
  have hall : ∀ x ∈ b.reverse, (fun c : Char => decide (¬ c = sep)) x = true := by
    intro x hx
    have : x ∈ b := List.mem_reverse.mp hx
    simp only [decide_eq_true_eq]
    exact fun he => hb (he ▸ this)
  rw [dropWhile_append_all hall, takeWhile_append_all hall]
  rw [List.dropWhile_cons_of_neg (by simp), List.takeWhile_cons_of_neg (by simp)]
  simp

theorem safeName_not_mem {s : List Char} (hs : safeNameOk s = true) {x : Char}
    (h1 : (x.isAlpha || x.isDigit || x = '_') = false)
    (h2 : (x.isAlpha || x.isDigit || x = '.' || x = '_' || x = '-') = false) :
    ¬ x ∈ s := by
  intro hmem
  cases s with
  | nil => simp at hmem
  | cons c rest =>
    unfold safeNameOk at hs
    simp only [Bool.and_eq_true] at hs
    rcases List.mem_cons.mp hmem with he | he
    · subst he
      rw [hs.1] at h1
      exact Bool.noConfusion h1
    · have hx := List.all_eq_true.mp hs.2 x he
      have hx' : (x.isAlpha || x.isDigit || x = '.' || x = '_' || x = '-') = true := by
        simpa using hx
      rw [hx'] at h2
      exact Bool.noConfusion h2

theorem intRepr_pos_digits {port : Int} (hpos : 1 ≤ port) :
    ∀ c ∈ intRepr port, c.isDigit = true := by
  intro c hc
  unfold intRepr at hc
  rw [if_neg (by omega)] at hc
  exact (natRepr_spec port.natAbs).2.1 c hc

theorem parseRemoteHostTail_ok {user : Option (List Char)} {host : List Char}
    {port : Int} {h : RemoteHost}
    (hp : parseRemoteHostTail user host port = .ok h) :
    h = ⟨host, user, port⟩ ∧ ¬ host = [] ∧ safeNameOk host = true ∧
      (∀ u, user = some u → u = [] ∨ safeNameOk u = true) := by
  unfold parseRemoteHostTail at hp
  by_cases h1 : host = []
  · rw [if_pos h1] at hp
    exact Except.noConfusion hp
  · rw [if_neg h1] at hp
    by_cases h2 : safeNameOk host = true
    · rw [if_neg (by simpa using h2)] at hp
      by_cases h3 : ¬ user.getD [] = [] ∧ ¬ safeNameOk (user.getD []) = true
      · rw [if_pos h3] at hp
        exact Except.noConfusion hp
      · rw [if_neg h3] at hp
        injection hp with hp'
        refine ⟨hp'.symm, h1, h2, ?_⟩
        intro u hu
        rw [hu] at h3
        simp only [Option.getD_some] at h3
        by_cases hue : u = []
        · exact Or.inl hue
        · refine Or.inr ?_
          by_contra hsafe
          exact h3 ⟨hue, hsafe⟩
    · rw [if_pos (by simpa using h2)] at hp
      exact Except.noConfusion hp

theorem parseRemotePort_ok {user : Option (List Char)} {spec1 : List Char}
    {h : RemoteHost} (hp : parseRemotePort user spec1 = .ok h) :
    (¬ ':' ∈ spec1 ∧ parseRemoteHostTail user spec1 22 = .ok h) ∨
    (∃ hostPart portStr port, rsplitOnce ':' spec1 = some (hostPart, portStr) ∧
      pyIntParse portStr = some port ∧ 1 ≤ port ∧ port ≤ 65535 ∧
      parseRemoteHostTail user hostPart port = .ok h) := by
  unfold parseRemotePort at hp
  repeat' split at hp
  all_goals first
    | exact Except.noConfusion hp
    | (rename_i hcol; exact Or.inl ⟨hcol, hp⟩)
    | (rename_i hrange
       exact Or.inr ⟨_, _, _, by assumption, by assumption, hrange.1, hrange.2, hp⟩)

theorem parseRemoteHost_ok {spec : List Char} {h : RemoteHost}
    (hp : parseRemoteHost spec = .ok h) :
    (¬ '@' ∈ spec ∧ parseRemotePort none spec = .ok h) ∨
    (∃ u rest, rsplitOnce '@' spec = some (u, rest) ∧ ¬ u = [] ∧
      parseRemotePort (some u) rest = .ok h) := by
  unfold parseRemoteHost at hp
  repeat' split at hp
  all_goals first
    | exact Except.noConfusion hp
    | (rename_i hat; exact Or.inl ⟨hat, hp⟩)
    | (rename_i hue; exact Or.inr ⟨_, _, by assumption, hue, hp⟩)

theorem parse_specString_of_wf (h : RemoteHost)
    (hh1 : ¬ h.hostname = []) (hh2 : safeNameOk h.hostname = true)
    (hu : ∀ u, h.user = some u → ¬ u = [] ∧ safeNameOk u = true)
    (hp1 : 1 ≤ h.port) (hp2 : h.port ≤ 65535) :
    parseRemoteHost (specString h) = .ok h := by
  have hathost : ¬ '@' ∈ h.hostname :=
    safeName_not_mem hh2 (by decide) (by decide)
  have hcolhost : ¬ ':' ∈ h.hostname :=
    safeName_not_mem hh2 (by decide) (by decide)
  have hdigit : ∀ c ∈ intRepr h.port, c.isDigit = true := intRepr_pos_digits hp1
  have hattail : ¬ '@' ∈ (if ¬ h.port = 22 then ':' :: intRepr h.port else []) := by
    split
    · intro hmem
      rcases List.mem_cons.mp hmem with he | he
      · exact absurd he (by decide)
      · exact absurd (hdigit _ he) (by decide)
    · simp
  have hcoltail : ¬ ':' ∈ intRepr h.port := by
    intro hmem
    exact absurd (hdigit _ hmem) (by decide)
  have htail : parseRemoteHostTail h.user h.hostname h.port = .ok h := by
    unfold parseRemoteHostTail
    rw [if_neg hh1, if_neg (by simp [hh2])]
    rw [if_neg (by
      intro hx
      cases hus : h.user with
      | none => rw [hus] at hx; simp at hx
      | some u =>
        obtain ⟨hu1, hu2⟩ := hu u hus
        rw [hus] at hx
        simp only [Option.getD_some] at hx
        exact hx.2 hu2)]
  have hport22 : parseRemotePort h.user (h.hostname ++
      (if ¬ h.port = 22 then ':' :: intRepr h.port else [])) = .ok h := by
    by_cases hp22 : h.port = 22
    · rw [if_neg (by simp [hp22])]
      unfold parseRemotePort
      rw [List.append_nil, if_neg (by simpa using hcolhost)]
      rw [← hp22]
      exact htail
    · rw [if_pos (by simpa using hp22)]
      unfold parseRemotePort
      rw [if_pos (by simp)]
      simp only [rsplitOnce_append hcoltail, pyIntParse_intRepr]
      rw [if_pos ⟨hp1, hp2⟩]
      exact htail
  have hattail2 : ¬ '@' ∈ h.hostname ++
      (if ¬ h.port = 22 then ':' :: intRepr h.port else []) := by
    intro hmem
    rcases List.mem_append.mp hmem with hm | hm
    · exact hathost hm
    · exact hattail hm
  unfold parseRemoteHost
  cases hus : h.user with
  | none =>
    have hss : specString h = h.hostname ++
        (if ¬ h.port = 22 then ':' :: intRepr h.port else []) := by
      unfold specString sshDestination
      rw [hus]
    rw [hss]
    rw [if_neg hattail2]
    rw [hus] at hport22
    exact hport22
  | some u =>
    obtain ⟨hu1, hu2⟩ := hu u hus
    have hdest : sshDestination h = u ++ '@' :: h.hostname := by
      unfold sshDestination
      rw [hus]
      show (if ¬ u = [] then u ++ '@' :: h.hostname else h.hostname) =
        u ++ '@' :: h.hostname
      rw [if_pos hu1]
    have hss : specString h = u ++ '@' :: (h.hostname ++
        (if ¬ h.port = 22 then ':' :: intRepr h.port else [])) := by
      unfold specString
      rw [hdest]
      simp
    rw [hss]
    rw [if_pos (by simp)]
    simp only [rsplitOnce_append hattail2]
    rw [if_neg hu1]
    rw [hus] at hport22
    exact hport22

/-- C7 (counterexample): the spec `h:22` is in the accepted grammar (port
22 is in 1..65535), but `RemoteHost.parse("h:22").spec_string()` is `h`,
not `h:22` — `spec_string` drops an explicit default port, so the round
trip is not the identity over the whole accepted grammar. -/
theorem remote_spec_string_not_fixed_point :
    (parseRemoteHost "h:22".toList).toOption = some ⟨"h".toList, none, 22⟩ ∧
    specString ⟨"h".toList, none, 22⟩ = "h".toList ∧
    ¬ specString ⟨"h".toList, none, 22⟩ = "h:22".toList :=
  ⟨by decide, by decide, by decide⟩

/-- C7 (amended): `spec_string` is a canonical form rather than a literal
fixed point: for every spec accepted by `RemoteHost.parse`, re-parsing
`spec_string` of the result yields the same `RemoteHost`; and on accepted
specs with no explicit port (no `:`), the round trip is the identity.
The literal identity can fail only on specs whose explicit port part is
`22` or not in canonical decimal form. -/
theorem remote_parse_spec_string_canonical (spec : List Char) (h : RemoteHost)
    (hp : parseRemoteHost spec = .ok h) :
    parseRemoteHost (specString h) = .ok h ∧
    (¬ ':' ∈ spec → specString h = spec) := by
  rcases parseRemoteHost_ok hp with ⟨hat, hrest⟩ | ⟨u, rest, hsplit, hue, hrest⟩
  · rcases parseRemotePort_ok hrest with ⟨hcol, htail⟩ |
      ⟨hostPart, portStr, port, hsp, hint, hr1, hr2, htail⟩
    · obtain ⟨he, hne, hsafe, _⟩ := parseRemoteHostTail_ok htail
      subst he
      refine ⟨parse_specString_of_wf _ hne hsafe
        (fun u hu => Option.noConfusion hu)
        (by show (1 : Int) ≤ 22; decide) (by show (22 : Int) ≤ 65535; decide), ?_⟩
      intro _
      simp [specString, sshDestination]
    · obtain ⟨he, hne, hsafe, _⟩ := parseRemoteHostTail_ok htail
      subst he
      refine ⟨parse_specString_of_wf _ hne hsafe
        (fun u hu => Option.noConfusion hu) hr1 hr2, ?_⟩
      intro hcolspec
      exfalso
      obtain ⟨hs, _⟩ := rsplitOnce_eq_some hsp
      exact hcolspec (by rw [hs]; simp)
  · rcases parseRemotePort_ok hrest with ⟨hcol, htail⟩ |
      ⟨hostPart, portStr, port, hsp, hint, hr1, hr2, htail⟩
    · obtain ⟨he, hne, hsafe, husafe⟩ := parseRemoteHostTail_ok htail
      subst he
      have hu' : ¬ u = [] ∧ safeNameOk u = true := by
        rcases husafe u rfl with h0 | h0
        · exact absurd h0 hue
        · exact ⟨hue, h0⟩
      refine ⟨parse_specString_of_wf _ hne hsafe (fun u' hu0 => by
          injection hu0 with hu0'
          subst hu0'
          exact hu')
        (by show (1 : Int) ≤ 22; decide) (by show (22 : Int) ≤ 65535; decide), ?_⟩
      intro hcolspec
      obtain ⟨hs, _⟩ := rsplitOnce_eq_some hsplit
      have hdest : sshDestination ⟨rest, some u, 22⟩ = u ++ '@' :: rest := by
        unfold sshDestination
        show (if ¬ u = [] then u ++ '@' :: rest else rest) = u ++ '@' :: rest
        rw [if_pos hu'.1]
      unfold specString
      rw [hdest]
      rw [if_neg (by simp), List.append_nil]
      exact hs.symm
    · obtain ⟨he, hne, hsafe, husafe⟩ := parseRemoteHostTail_ok htail
      subst he
      have hu' : ¬ u = [] ∧ safeNameOk u = true := by
        rcases husafe u rfl with h0 | h0
        · exact absurd h0 hue
        · exact ⟨hue, h0⟩
      refine ⟨parse_specString_of_wf _ hne hsafe (fun u' hu0 => by
          injection hu0 with hu0'
          subst hu0'
          exact hu') hr1 hr2, ?_⟩
      intro hcolspec
      exfalso
      obtain ⟨hs1, _⟩ := rsplitOnce_eq_some hsplit
      obtain ⟨hs2, _⟩ := rsplitOnce_eq_some hsp
      exact hcolspec (by rw [hs1, hs2]; simp)

/-- Witness for the amended C7 at the accepted spec `alice@h1:2222`. -/
theorem remote_parse_spec_string_canonical_witness :
    parseRemoteHost (specString ⟨"h1".toList, some "alice".toList, 2222⟩) =
      .ok ⟨"h1".toList, some "alice".toList, 2222⟩ ∧
    (¬ ':' ∈ "alice@h1:2222".toList →
      specString ⟨"h1".toList, some "alice".toList, 2222⟩ =
        "alice@h1:2222".toList) :=
  remote_parse_spec_string_canonical "alice@h1:2222".toList
    ⟨"h1".toList, some "alice".toList, 2222⟩ rfl

/-! ## Claim C10: a denied `RateLimiter.check` consumes no quota -/

theorem mem_not_mem_dropWhile {α : Type} {p : α → Bool} {l : List α} {x : α}
    (hx : x ∈ l) (hnx : ¬ x ∈ l.dropWhile p) : p x = true := by
  have hsplit := List.takeWhile_append_dropWhile (p := p) (l := l)
  rw [← hsplit] at hx
  rcases List.mem_append.mp hx with hm | hm
  · exact mem_takeWhile_sat hm
  · exact absurd hm hnx

theorem lookupA_eq_none_iff {κ β : Type} [BEq κ] [LawfulBEq κ]
    {l : List (κ × β)} {k : κ} :
    lookupA l k = none ↔ ∀ p ∈ l, ¬ p.1 = k := by
  unfold lookupA
  rw [Option.map_eq_none', List.find?_eq_none]
  constructor
  · intro h p hp
    simpa using h p hp
  · intro h p hp
    simpa using h p hp

theorem lookupA_none_removeA {κ β : Type} [BEq κ] [LawfulBEq κ]
    {l : List (κ × β)} {k k0 : κ} (h : lookupA l k = none) :
    lookupA (removeA l k0) k = none := by
  rw [lookupA_eq_none_iff] at h ⊢
  intro p hp
  exact h p (List.mem_of_mem_filter hp)

theorem pruneOld_nil (now : Int) : pruneOld now [] = [] := rfl

/-- Evaluation of `rlCheck` for a container already tracked: no eviction,
no `setdefault`; the container deque is pruned and the three windows
decide. -/
theorem rlCheck_tracked_eval {s : RL} {c : String} {now : Int} {qc : List Int}
    (hg : ¬ (pruneOld now s.glob).length ≥ GLOBAL_RATE_LIMIT_PER_HOUR)
    (hc : lookupA s.requests c = some qc) :
    rlCheck s c now =
      (if ((pruneOld now qc).filter (fun t => t > now - 60)).length ≥ 3 ∨
          ((pruneOld now qc).filter (fun t => t > now - 600)).length ≥ 10 ∨
          (pruneOld now qc).length ≥ 20 then
        (false, ⟨updateA s.requests c (pruneOld now qc), pruneOld now s.glob⟩)
      else
        (true, ⟨updateA s.requests c (pruneOld now qc ++ [now]),
          pruneOld now s.glob ++ [now]⟩)) := by
  simp only [rlCheck, if_neg hg]
  simp [hc]

/-- Evaluation of `rlCheck` for an untracked container: possibly one LRU
eviction, then a fresh deque which always passes the windows — the
request is granted. -/
theorem rlCheck_fresh_eval {s : RL} {c : String} {now : Int}
    (hg : ¬ (pruneOld now s.glob).length ≥ GLOBAL_RATE_LIMIT_PER_HOUR)
    (hc : lookupA s.requests c = none) :
    ∃ reqs1,
      (reqs1 = s.requests ∨
        (s.requests.length ≥ MAX_TRACKED_CONTAINERS ∧
          ∃ k0, oldestKey s.requests = some k0 ∧ reqs1 = removeA s.requests k0)) ∧
      lookupA reqs1 c = none ∧
      rlCheck s c now =
        (true, ⟨updateA (reqs1 ++ [(c, [])]) c [now], pruneOld now s.glob ++ [now]⟩) := by
  have hwin : ¬((0 : Nat) ≥ 3 ∨ (0 : Nat) ≥ 10 ∨ (0 : Nat) ≥ 20) := by decide
  by_cases hev : (lookupA s.requests c).isNone ∧
      s.requests.length ≥ MAX_TRACKED_CONTAINERS
  · cases hok : oldestKey s.requests with
    | none =>
      exfalso
      cases hreq : s.requests with
      | nil => rw [hreq] at hev; simp [MAX_TRACKED_CONTAINERS] at hev
      | cons p rest => rw [hreq] at hok; simp [oldestKey] at hok
    | some k0 =>
      have hn1 : lookupA (removeA s.requests k0) c = none := lookupA_none_removeA hc
      refine ⟨removeA s.requests k0, Or.inr ⟨hev.2, k0, rfl, rfl⟩, hn1, ?_⟩
      have hnotsome : ¬(lookupA (removeA s.requests k0) c).isSome = true := by
        simp [hn1]
      have happ := lookupA_append_single (removeA s.requests k0) c ([] : List Int) hn1
      simp only [rlCheck, if_neg hg, if_pos hev, hok, if_neg hnotsome, happ,
        Option.getD_some, pruneOld_nil, List.filter_nil,
        List.length_nil, if_neg hwin, List.nil_append]
  · have hnotsome : ¬(lookupA s.requests c).isSome = true := by simp [hc]
    have happ := lookupA_append_single s.requests c ([] : List Int) hc
    refine ⟨s.requests, Or.inl rfl, hc, ?_⟩
    simp only [rlCheck, if_neg hg, if_neg hev, if_neg hnotsome, happ,
      Option.getD_some, pruneOld_nil, List.filter_nil,
      List.length_nil, if_neg hwin, List.nil_append]

/-- An untracked container is always granted (when the global cap
passes). -/
theorem rlCheck_fresh_grant {s : RL} {c : String} {now : Int}
    (hg : ¬ (pruneOld now s.glob).length ≥ GLOBAL_RATE_LIMIT_PER_HOUR)
    (hc : lookupA s.requests c = none) : (rlCheck s c now).1 = true := by
  obtain ⟨reqs1, _, _, heval⟩ := rlCheck_fresh_eval hg hc
  rw [heval]

/-- C10: whenever `RateLimiter.check` returns `False`, no timestamp is
appended to the per-container deque or to the global deque — the global
deque is exactly pruned, the requests dict is unchanged except possibly
for pruning the checked container's own deque (in particular no eviction
happens on a denial), and every timestamp removed by pruning is older
than 3600 seconds. -/
theorem rateLimiter_denied_no_quota (s : RL) (c : String) (now : Int)
    (h : (rlCheck s c now).1 = false) :
    (rlCheck s c now).2.glob = pruneOld now s.glob ∧
    ((rlCheck s c now).2.requests = s.requests ∨
      ∃ q, lookupA s.requests c = some q ∧
        (rlCheck s c now).2.requests = updateA s.requests c (pruneOld now q)) ∧
    (∀ x, x ∈ s.glob → ¬ x ∈ (rlCheck s c now).2.glob → x < now - 3600) ∧
    (∀ q x, lookupA s.requests c = some q → x ∈ q → ¬ x ∈ pruneOld now q →
      x < now - 3600) := by
  have hprune : ∀ (L : List Int) (x : Int), x ∈ L → ¬ x ∈ pruneOld now L →
      x < now - 3600 := by
    intro L x hx hnx
    have := mem_not_mem_dropWhile hx hnx
    simpa using this
  by_cases hg : (pruneOld now s.glob).length ≥ GLOBAL_RATE_LIMIT_PER_HOUR
  · have hres : rlCheck s c now = (false, ⟨s.requests, pruneOld now s.glob⟩) := by
      simp only [rlCheck]
      rw [if_pos hg]
    rw [hres]
    exact ⟨rfl, Or.inl rfl, fun x hx hnx => hprune s.glob x hx hnx,
      fun q x hq hx hnx => hprune q x hx hnx⟩
  · cases hc : lookupA s.requests c with
    | none =>
      exfalso
      rw [rlCheck_fresh_grant hg hc] at h
      exact Bool.noConfusion h
    | some qc =>
      have heval := rlCheck_tracked_eval hg hc
      by_cases hw : ((pruneOld now qc).filter (fun t => t > now - 60)).length ≥ 3 ∨
          ((pruneOld now qc).filter (fun t => t > now - 600)).length ≥ 10 ∨
          (pruneOld now qc).length ≥ 20
      · rw [if_pos hw] at heval
        rw [heval]
        exact ⟨rfl, Or.inr ⟨qc, rfl, rfl⟩,
          fun x hx hnx => hprune s.glob x hx hnx,
          fun q x hq hx hnx => hprune q x hx hnx⟩
      · exfalso
        rw [if_neg hw] at heval
        rw [heval] at h
        exact Bool.noConfusion h

/-- Witness for C10 at a state where the per-minute window denies. -/
theorem rateLimiter_denied_no_quota_witness :
    (rlCheck ⟨[("a", [0, 1, 2])], [0, 1, 2]⟩ "a" 3).2.glob =
        pruneOld 3 [0, 1, 2] ∧
      ((rlCheck ⟨[("a", [0, 1, 2])], [0, 1, 2]⟩ "a" 3).2.requests =
          [("a", [0, 1, 2])] ∨
        ∃ q, lookupA [("a", [0, 1, 2])] "a" = some q ∧
          (rlCheck ⟨[("a", [0, 1, 2])], [0, 1, 2]⟩ "a" 3).2.requests =
            updateA [("a", [0, 1, 2])] "a" (pruneOld 3 q)) ∧
      (∀ x, x ∈ [(0 : Int), 1, 2] →
        ¬ x ∈ (rlCheck ⟨[("a", [0, 1, 2])], [0, 1, 2]⟩ "a" 3).2.glob →
        x < 3 - 3600) ∧
      (∀ q x, lookupA [("a", [0, 1, 2])] "a" = some q → x ∈ q →
        ¬ x ∈ pruneOld 3 q → x < 3 - 3600) :=
  rateLimiter_denied_no_quota ⟨[("a", [0, 1, 2])], [0, 1, 2]⟩ "a" 3 (by decide)

/-! ## Claim C2: the `RateLimiter` sliding-window bounds -/

theorem rlCheck_glob_denied {s : RL} {c : String} {now : Int}
    (hgg : (pruneOld now s.glob).length ≥ GLOBAL_RATE_LIMIT_PER_HOUR) :
    rlCheck s c now = (false, ⟨s.requests, pruneOld now s.glob⟩) := by
  simp only [rlCheck]
  rw [if_pos hgg]

theorem mem_of_mem_dropWhile {α : Type} {p : α → Bool} {l : List α} {x : α}
    (hx : x ∈ l.dropWhile p) : x ∈ l := by
  rw [← List.takeWhile_append_dropWhile (p := p) (l := l)]
  exact List.mem_append_right _ hx

theorem mem_of_mem_takeWhile {α : Type} {p : α → Bool} {l : List α} {x : α}
    (hx : x ∈ l.takeWhile p) : x ∈ l := by
  rw [← List.takeWhile_append_dropWhile (p := p) (l := l)]
  exact List.mem_append_left _ hx

theorem length_filter_mono {α : Type} {p q : α → Bool}
    (h : ∀ x, p x = true → q x = true) (l : List α) :
    (l.filter p).length ≤ (l.filter q).length := by
  induction l with
  | nil => simp
  | cons a t ih =>
    by_cases hp : p a = true
    · simp only [List.filter_cons, hp, h a hp, if_pos, List.length_cons]
      exact Nat.succ_le_succ ih
    · by_cases hq : q a = true
      · simp only [List.filter_cons, hp, hq]
        simp only [if_neg, if_pos, List.length_cons]
        exact Nat.le_succ_of_le ih
      · simp only [List.filter_cons, hp, hq]
        simpa using ih

theorem filter_eq_nil_of_none {α : Type} {p : α → Bool} {l : List α}
    (h : ∀ x ∈ l, p x = false) : l.filter p = [] := by
  induction l with
  | nil => rfl
  | cons a t ih =>
    have ha := h a (by simp)
    simp only [List.filter_cons, ha]
    exact ih (fun x hx => h x (by simp [hx]))

theorem filter_dropWhile_eq {α : Type} {p q : α → Bool} {l : List α}
    (h : ∀ x ∈ l, q x = true → p x = false) :
    (l.dropWhile q).filter p = l.filter p := by
  conv_rhs => rw [← List.takeWhile_append_dropWhile (p := q) (l := l)]
  rw [List.filter_append,
    filter_eq_nil_of_none (fun x hx => h x (mem_of_mem_takeWhile hx) (mem_takeWhile_sat hx))]
  rfl

theorem length_filter_map_eq {α β : Type} (g : α → β) (R : β → Bool) (l : List α) :
    ((l.map g).filter R).length = (l.filter (fun x => R (g x))).length := by
  induction l with
  | nil => rfl
  | cons a t ih =>
    by_cases h : R (g a) = true
    · simp [List.filter_cons, h, ih]
    · simp [List.filter_cons, h, ih]

theorem filter_ext {α : Type} {p q : α → Bool} (l : List α)
    (h : ∀ x ∈ l, p x = q x) : l.filter p = l.filter q := by
  induction l with
  | nil => rfl
  | cons a t ih =>
    simp only [List.filter_cons, h a (by simp)]
    rw [ih (fun x hx => h x (by simp [hx]))]

theorem filter_filter_length {α : Type} (p q : α → Bool) (l : List α) :
    ((l.filter p).filter q).length = (l.filter (fun x => p x && q x)).length := by
  rw [List.filter_filter]
  exact congrArg List.length (filter_ext l (fun x _ => Bool.and_comm (q x) (p x)))

theorem length_filter_split {α : Type} (p q : α → Bool) (l : List α) :
    (l.filter p).length =
      (l.filter (fun x => p x && q x)).length +
      (l.filter (fun x => p x && ! q x)).length := by
  induction l with
  | nil => rfl
  | cons a t ih =>
    by_cases hp : p a = true <;> by_cases hq : q a = true <;>
      simp [List.filter_cons, hp, hq] <;> omega

theorem dropWhile_eq_drop {α : Type} (p : α → Bool) (L : List α) :
    ∃ j, j ≤ L.length ∧ L.dropWhile p = L.drop j ∧
      ∀ x ∈ L.take j, p x = true := by
  induction L with
  | nil => exact ⟨0, by simp, rfl, by simp⟩
  | cons a t ih =>
    by_cases hp : p a = true
    · obtain ⟨j, hj, he, hall⟩ := ih
      refine ⟨j + 1, by simpa using Nat.succ_le_succ hj, ?_, ?_⟩
      · simpa [List.dropWhile_cons, hp] using he
      · intro x hx
        rw [List.take_succ_cons] at hx
        rcases List.mem_cons.mp hx with rfl | hx
        · exact hp
        · exact hall x hx
    · exact ⟨0, by simp, by simp [List.dropWhile_cons, hp], by simp⟩

theorem dropWhile_drop_eq_drop {α : Type} (p : α → Bool) (L : List α) (k : Nat)
    (hk : k ≤ L.length) (hall : ∀ x ∈ L.take k, p x = true) :
    ∃ j, j ≤ L.length ∧ (L.drop k).dropWhile p = L.drop j ∧
      ∀ x ∈ L.take j, p x = true := by
  obtain ⟨j', hj', he, hall'⟩ := dropWhile_eq_drop p (L.drop k)
  have hlen := List.length_drop k L
  have hd : (L.drop k).drop j' = L.drop (k + j') := by
    rw [List.drop_drop]
  refine ⟨k + j', by omega, by rw [he, hd], ?_⟩
  intro x hx
  rw [List.take_add] at hx
  rcases List.mem_append.mp hx with hx | hx
  · exact hall x hx
  · exact hall' x hx

theorem lookupA_cons_pos {κ β : Type} [BEq κ] {a : κ × β} {t : List (κ × β)}
    {k : κ} (h : (a.1 == k) = true) : lookupA (a :: t) k = some a.2 := by
  unfold lookupA
  rw [List.find?_cons_of_pos (p := fun q : κ × β => q.1 == k) _ h]
  rfl

theorem lookupA_cons_neg {κ β : Type} [BEq κ] {a : κ × β} {t : List (κ × β)}
    {k : κ} (h : ¬ (a.1 == k) = true) : lookupA (a :: t) k = lookupA t k := by
  unfold lookupA
  rw [List.find?_cons_of_neg (p := fun q : κ × β => q.1 == k) _ h]

theorem lookupA_append_left {κ β : Type} [BEq κ] {l : List (κ × β)} {k : κ}
    {v : β} (m : List (κ × β)) (h : lookupA l k = some v) :
    lookupA (l ++ m) k = some v := by
  induction l with
  | nil => simp [lookupA] at h
  | cons a t ih =>
    by_cases hak : (a.1 == k) = true
    · rw [lookupA_cons_pos hak] at h
      rw [List.cons_append, lookupA_cons_pos hak]
      exact h
    · rw [lookupA_cons_neg hak] at h
      rw [List.cons_append, lookupA_cons_neg hak]
      exact ih h

theorem lookupA_append_right {κ β : Type} [BEq κ] {l : List (κ × β)} {k : κ}
    (m : List (κ × β)) (h : lookupA l k = none) :
    lookupA (l ++ m) k = lookupA m k := by
  induction l with
  | nil => rfl
  | cons a t ih =>
    by_cases hak : (a.1 == k) = true
    · rw [lookupA_cons_pos hak] at h
      exact absurd h (by simp)
    · rw [lookupA_cons_neg hak] at h
      rw [List.cons_append, lookupA_cons_neg hak]
      exact ih h

theorem lookupA_single_ne {κ β : Type} [BEq κ] [LawfulBEq κ] {k k' : κ} {v : β}
    (h : ¬ k = k') : lookupA [(k, v)] k' = none := by
  rw [lookupA_cons_neg (by simpa using h)]
  rfl

theorem lookupA_updateA_ne {κ β : Type} [BEq κ] [LawfulBEq κ]
    (l : List (κ × β)) (k k' : κ) (v : β) (h : ¬ k' = k) :
    lookupA (updateA l k v) k' = lookupA l k' := by
  induction l with
  | nil => rfl
  | cons a t ih =>
    unfold updateA at ih ⊢
    simp only [List.map_cons]
    by_cases hak : (a.1 == k) = true
    · have hane : ¬ (a.1 == k') = true := by
        have := eq_of_beq hak
        simp [this]
        intro hh
        exact h hh.symm
      rw [if_pos hak]
      rw [lookupA_cons_neg (show ¬ ((a.1, v).1 == k') = true from hane)]
      rw [lookupA_cons_neg hane]
      exact ih
    · rw [if_neg hak]
      by_cases hak' : (a.1 == k') = true
      · rw [lookupA_cons_pos hak', lookupA_cons_pos hak']
      · rw [lookupA_cons_neg hak', lookupA_cons_neg hak']
        exact ih

theorem lookupA_removeA_ne {κ β : Type} [BEq κ] [LawfulBEq κ]
    (l : List (κ × β)) (k k' : κ) (h : ¬ k' = k) :
    lookupA (removeA l k) k' = lookupA l k' := by
  induction l with
  | nil => rfl
  | cons a t ih =>
    unfold removeA at ih ⊢
    simp only [List.filter_cons]
    by_cases hak : (a.1 == k) = true
    · have hane : ¬ (a.1 == k') = true := by
        have := eq_of_beq hak
        simp [this]
        intro hh
        exact h hh.symm
      rw [if_neg (by simp [hak])]
      rw [lookupA_cons_neg hane]
      exact ih
    · rw [if_pos (by simp [hak])]
      by_cases hak' : (a.1 == k') = true
      · rw [lookupA_cons_pos hak', lookupA_cons_pos hak']
      · rw [lookupA_cons_neg hak', lookupA_cons_neg hak']
        exact ih

theorem keys_updateA {κ β : Type} [BEq κ] (l : List (κ × β)) (k : κ) (v : β) :
    (updateA l k v).map (fun p => p.1) = l.map (fun p => p.1) := by
  induction l with
  | nil => rfl
  | cons a t ih =>
    unfold updateA at ih ⊢
    simp only [List.map_cons]
    by_cases hak : (a.1 == k) = true
    · rw [if_pos hak]
      simpa using ih
    · rw [if_neg hak]
      simpa using ih

theorem keys_removeA_sublist {κ β : Type} [BEq κ] (l : List (κ × β)) (k : κ) :
    ((removeA l k).map (fun p => p.1)).Sublist (l.map (fun p => p.1)) :=
  (List.filter_sublist l).map _

theorem mem_updateA_or {κ β : Type} [BEq κ] {l : List (κ × β)} {k : κ} {v : β}
    {p : κ × β} (hp : p ∈ updateA l k v) : p ∈ l ∨ p.2 = v := by
  unfold updateA at hp
  obtain ⟨q, hq, he⟩ := List.mem_map.mp hp
  by_cases hqk : (q.1 == k) = true
  · rw [if_pos hqk] at he
    right
    rw [← he]
  · rw [if_neg hqk] at he
    left
    exact he ▸ hq

theorem mem_of_removeA {κ β : Type} [BEq κ] {l : List (κ × β)} {k : κ}
    {p : κ × β} (hp : p ∈ removeA l k) : p ∈ l :=
  List.mem_of_mem_filter hp

theorem mem_of_lookupA {κ β : Type} [BEq κ] {l : List (κ × β)} {k : κ} {v : β}
    (h : lookupA l k = some v) : ∃ p ∈ l, p.2 = v := by
  unfold lookupA at h
  rw [Option.map_eq_some'] at h
  obtain ⟨p, hp, hv⟩ := h
  exact ⟨p, List.mem_of_find?_eq_some hp, hv⟩

theorem lookupA_of_mem_nodup {κ β : Type} [BEq κ] [LawfulBEq κ]
    {l : List (κ × β)} (hnd : (l.map (fun p => p.1)).Nodup)
    {p : κ × β} (hp : p ∈ l) : lookupA l p.1 = some p.2 := by
  induction l with
  | nil => simp at hp
  | cons a t ih =>
    rcases List.mem_cons.mp hp with rfl | hp'
    · exact lookupA_cons_pos (by simp)
    · simp only [List.map_cons] at hnd
      have hnd2 := List.nodup_cons.mp hnd
      have hne : ¬ (a.1 == p.1) = true := by
        intro hbeq
        have hae : a.1 = p.1 := eq_of_beq hbeq
        have : p.1 ∈ t.map (fun q => q.1) := List.mem_map_of_mem _ hp'
        rw [← hae] at this
        exact hnd2.1 this
      rw [lookupA_cons_neg hne]
      exact ih hnd2.2 hp'

theorem updateA_append_single {κ β : Type} [BEq κ] [LawfulBEq κ]
    (l : List (κ × β)) (k : κ) (v0 v : β) (h : lookupA l k = none) :
    updateA (l ++ [(k, v0)]) k v = l ++ [(k, v)] := by
  induction l with
  | nil => simp [updateA]
  | cons a t ih =>
    have hak : ¬ (a.1 == k) = true := by
      intro hbeq
      rw [lookupA_cons_pos hbeq] at h
      simp at h
    rw [lookupA_cons_neg hak] at h
    unfold updateA at ih ⊢
    simp only [List.cons_append, List.map_cons]
    rw [if_neg hak]
    rw [ih h]

theorem lastD_concat (l : List Int) (x : Int) : lastD (l ++ [x]) = x := by
  unfold lastD
  simp

theorem lastD_append {l r : List Int} (h : ¬ r = []) :
    lastD (l ++ r) = lastD r := by
  unfold lastD
  rw [List.getLastD_eq_getLast?, List.getLastD_eq_getLast?]
  rw [List.getLast?_append_of_ne_nil l h]

theorem lastD_mem {q : List Int} (h : ¬ q = []) : lastD q ∈ q := by
  unfold lastD
  rw [List.getLastD_eq_getLast?]
  rw [List.getLast?_eq_getLast q h]
  exact List.getLast_mem h

theorem cGrants_append (l m : List (String × Int)) (c : String) :
    cGrants (l ++ m) c = cGrants l c ++ cGrants m c := by
  simp [cGrants, List.filter_append]

theorem cGrants_single_self (c : String) (t : Int) :
    cGrants [(c, t)] c = [t] := by
  simp [cGrants]

theorem cGrants_single_ne {c c' : String} (t : Int) (h : ¬ c = c') :
    cGrants [(c, t)] c' = [] := by
  simp [cGrants, h]

theorem rlRun_append (s : RL) (l m : List (String × Int)) :
    rlRun s (l ++ m) = rlRun (rlRun s l) m := by
  induction l generalizing s with
  | nil => rfl
  | cons e t ih =>
    obtain ⟨c, tt⟩ := e
    simp [rlRun, ih]

theorem rlGrants_append (s : RL) (l m : List (String × Int)) :
    rlGrants s (l ++ m) = rlGrants s l ++ rlGrants (rlRun s l) m := by
  induction l generalizing s with
  | nil => rfl
  | cons e t ih =>
    obtain ⟨c, tt⟩ := e
    simp [rlGrants, rlRun, ih]

theorem oldestKeyAux_spec (rest : List (String × List Int)) (k : String) (v : Int) :
    (oldestKeyAux k v rest = k ∧ ∀ p ∈ rest, v ≤ lastD p.2) ∨
      (∃ p ∈ rest, oldestKeyAux k v rest = p.1 ∧ lastD p.2 ≤ v ∧
        ∀ q ∈ rest, lastD p.2 ≤ lastD q.2) := by
  induction rest generalizing k v with
  | nil => exact Or.inl ⟨rfl, by simp⟩
  | cons e rest ih =>
    obtain ⟨k1, q1⟩ := e
    have hif : oldestKeyAux k v ((k1, q1) :: rest) =
        if lastD q1 < v then oldestKeyAux k1 (lastD q1) rest
        else oldestKeyAux k v rest := rfl
    have hpr : lastD (k1, q1).2 = lastD q1 := rfl
    by_cases he : lastD q1 < v
    · have haux : oldestKeyAux k v ((k1, q1) :: rest) =
          oldestKeyAux k1 (lastD q1) rest := by
        rw [hif, if_pos he]
      rcases ih k1 (lastD q1) with ⟨hk, hall⟩ | ⟨p, hp, hkp, hle, hall⟩
      · refine Or.inr ⟨(k1, q1), by simp, by rw [haux, hk], by omega, ?_⟩
        intro q hq
        rcases List.mem_cons.mp hq with rfl | hq
        · exact le_refl _
        · exact hall q hq
      · refine Or.inr ⟨p, by simp [hp], by rw [haux, hkp], by omega, ?_⟩
        intro q hq
        rcases List.mem_cons.mp hq with rfl | hq
        · omega
        · exact hall q hq
    · have haux : oldestKeyAux k v ((k1, q1) :: rest) = oldestKeyAux k v rest := by
        rw [hif, if_neg he]
      rcases ih k v with ⟨hk, hall⟩ | ⟨p, hp, hkp, hle, hall⟩
      · refine Or.inl ⟨by rw [haux, hk], ?_⟩
        intro q hq
        rcases List.mem_cons.mp hq with rfl | hq
        · omega
        · exact hall q hq
      · refine Or.inr ⟨p, by simp [hp], by rw [haux, hkp], hle, ?_⟩
        intro q hq
        rcases List.mem_cons.mp hq with rfl | hq
        · omega
        · exact hall q hq

theorem oldestKey_min {l : List (String × List Int)} {k0 : String}
    (h : oldestKey l = some k0) :
    ∃ p0 ∈ l, p0.1 = k0 ∧ ∀ p ∈ l, lastD p0.2 ≤ lastD p.2 := by
  cases l with
  | nil => simp [oldestKey] at h
  | cons e rest =>
    obtain ⟨k1, q1⟩ := e
    unfold oldestKey at h
    have hk0 : oldestKeyAux k1 (lastD q1) rest = k0 := by
      simpa using h
    have hpr : lastD (k1, q1).2 = lastD q1 := rfl
    rcases oldestKeyAux_spec rest k1 (lastD q1) with ⟨hk, hall⟩ | ⟨p, hp, hkp, hle, hall⟩
    · refine ⟨(k1, q1), by simp, by rw [← hk0, hk], ?_⟩
      intro p hp
      rcases List.mem_cons.mp hp with rfl | hp
      · exact le_refl _
      · have := hall p hp
        omega
    · refine ⟨p, by simp [hp], by rw [← hk0, hkp], ?_⟩
      intro q hq
      rcases List.mem_cons.mp hq with rfl | hq
      · omega
      · exact hall q hq

theorem count_key_restrict (R : Int → Bool) (gs : List (String × Int)) (k k' : String)
    (hne : ¬ k' = k) :
    ((gs.filter (fun e => ! (e.1 == k))).filter
        (fun e => (e.1 == k') && R e.2)).length =
      (gs.filter (fun e => (e.1 == k') && R e.2)).length := by
  rw [filter_filter_length]
  apply congrArg List.length
  apply filter_ext
  intro e _
  cases hek : (e.1 == k') with
  | false => simp [hek]
  | true =>
    have h1 : e.1 = k' := eq_of_beq hek
    have h2 : (e.1 == k) = false := by
      rw [h1]
      exact beq_eq_false_iff_ne.mpr hne
    simp [hek, h2]

theorem nodup_keys_count (R : Int → Bool) :
    ∀ (ks : List String), ks.Nodup →
    ∀ (gs : List (String × Int)),
    (∀ k ∈ ks, 1 ≤ (gs.filter (fun e => (e.1 == k) && R e.2)).length) →
    ks.length ≤ (gs.filter (fun e => R e.2)).length := by
  intro ks
  induction ks with
  | nil =>
    intro _ gs _
    simp
  | cons k ks ih =>
    intro hnd gs hall
    have hknotin := (List.nodup_cons.mp hnd).1
    have hnd2 := (List.nodup_cons.mp hnd).2
    have h1 : 1 ≤ (gs.filter (fun e => (e.1 == k) && R e.2)).length :=
      hall k (by simp)
    have h2 : ks.length ≤
        ((gs.filter (fun e => ! (e.1 == k))).filter (fun e => R e.2)).length := by
      apply ih hnd2
      intro k' hk'
      have hne : ¬ k' = k := fun hh => hknotin (hh ▸ hk')
      rw [count_key_restrict R gs k k' hne]
      exact hall k' (by simp [hk'])
    have h3 : ((gs.filter (fun e => ! (e.1 == k))).filter (fun e => R e.2)).length =
        (gs.filter (fun e => R e.2 && ! (e.1 == k))).length := by
      rw [filter_filter_length]
      apply congrArg List.length
      apply filter_ext
      intro e _
      exact Bool.and_comm _ _
    have h4 : (gs.filter (fun e => (e.1 == k) && R e.2)).length =
        (gs.filter (fun e => R e.2 && (e.1 == k))).length := by
      apply congrArg List.length
      apply filter_ext
      intro e _
      exact Bool.and_comm _ _
    have hsplit := length_filter_split (fun e : String × Int => R e.2)
      (fun e : String × Int => e.1 == k) gs
    simp only [List.length_cons]
    omega

theorem cGrants_filter_len (R : Int → Bool) (gs : List (String × Int)) (c : String) :
    ((cGrants gs c).filter R).length =
      (gs.filter (fun e => (e.1 == c) && R e.2)).length := by
  unfold cGrants
  rw [length_filter_map_eq, filter_filter_length]

/-- When the global check has passed and an eviction is about to happen,
the victim chosen by `min(..., key=last-timestamp)` has only expired
timestamps: otherwise all 100 tracked containers would have a recent
grant each, forcing at least 100 recent entries in the pruned global
deque, contradicting the global cap of 30. -/
theorem evict_oldest_old {gs : List (String × Int)} {T : Int} {s : RL} {now : Int}
    {k0 : String} (hinv : RLInv gs T s) (hT : T ≤ now)
    (hg : ¬ (pruneOld now s.glob).length ≥ GLOBAL_RATE_LIMIT_PER_HOUR)
    (hlen : s.requests.length ≥ MAX_TRACKED_CONTAINERS)
    (hok : oldestKey s.requests = some k0) :
    ∀ x ∈ dequeOf s k0, x ≤ now - 3600 := by
  obtain ⟨p0, hp0, hp0k, hmin⟩ := oldestKey_min hok
  have hdq : dequeOf s k0 = p0.2 := by
    unfold dequeOf
    rw [← hp0k, lookupA_of_mem_nodup hinv.keys_nodup hp0]
    rfl
  rw [hdq]
  intro x hx
  have hxlast : x ≤ lastD p0.2 := hinv.deque_le_last p0 hp0 x hx
  by_contra hgt
  have hcount : ∀ k ∈ s.requests.map (fun p => p.1),
      1 ≤ (gs.filter (fun e => (e.1 == k) &&
        decide (now - 3600 ≤ e.2))).length := by
    intro k hk
    obtain ⟨p, hp, rfl⟩ := List.mem_map.mp hk
    have hne := hinv.deque_nonempty p hp
    have hlm : lastD p.2 ∈ p.2 := lastD_mem hne
    obtain ⟨d, hcg, _⟩ := hinv.grants_suffix p.1
    have hdqp : dequeOf s p.1 = p.2 := by
      unfold dequeOf
      rw [lookupA_of_mem_nodup hinv.keys_nodup hp]
      rfl
    have hmem : lastD p.2 ∈ cGrants gs p.1 := by
      rw [hcg, hdqp]
      exact List.mem_append_right _ hlm
    have hrec : decide (now - 3600 ≤ lastD p.2) = true := by
      have := hmin p hp
      simp only [decide_eq_true_eq]
      omega
    have hmf : lastD p.2 ∈ (cGrants gs p.1).filter
        (fun t => decide (now - 3600 ≤ t)) :=
      List.mem_filter.mpr ⟨hmem, hrec⟩
    have hpos := List.length_pos.mpr (List.ne_nil_of_mem hmf)
    rw [cGrants_filter_len] at hpos
    omega
  have hB := nodup_keys_count (fun t => decide (now - 3600 ≤ t))
    (s.requests.map (fun p => p.1)) hinv.keys_nodup gs hcount
  rw [List.length_map] at hB
  obtain ⟨k, hk, hglob, hpref⟩ := hinv.glob_suffix
  have hmapfil : (gs.filter (fun e => decide (now - 3600 ≤ e.2))).length =
      ((gs.map (fun e => e.2)).filter (fun t => decide (now - 3600 ≤ t))).length :=
    (length_filter_map_eq (fun e => e.2) (fun t => decide (now - 3600 ≤ t)) gs).symm
  have htd : ((gs.map (fun e => e.2)).filter
      (fun t => decide (now - 3600 ≤ t))).length =
      (s.glob.filter (fun t => decide (now - 3600 ≤ t))).length := by
    conv_lhs => rw [← List.take_append_drop k (gs.map (fun e => e.2))]
    rw [List.filter_append, List.length_append]
    rw [filter_eq_nil_of_none (fun x hx => by
      have := hpref x hx
      simp only [decide_eq_false_iff_not]
      omega)]
    rw [← hglob]
    simp
  have hfd : s.glob.filter (fun t => decide (now - 3600 ≤ t)) =
      (pruneOld now s.glob).filter (fun t => decide (now - 3600 ≤ t)) := by
    unfold pruneOld
    rw [filter_dropWhile_eq (fun x _ hq => by
      simp only [decide_eq_true_eq] at hq
      simp only [decide_eq_false_iff_not]
      omega)]
  have hle2 : ((pruneOld now s.glob).filter
      (fun t => decide (now - 3600 ≤ t))).length ≤ (pruneOld now s.glob).length :=
    List.length_filter_le _ _
  unfold GLOBAL_RATE_LIMIT_PER_HOUR at hg
  unfold MAX_TRACKED_CONTAINERS at hlen
  rw [hmapfil, htd, hfd] at hB
  omega

theorem glob_suffix_prune {gs : List (String × Int)} {T : Int} {s : RL}
    {now : Int} (hinv : RLInv gs T s) (hT : T ≤ now) :
    ∃ j, j ≤ (gs.map (fun e => e.2)).length ∧
      pruneOld now s.glob = (gs.map (fun e => e.2)).drop j ∧
      ∀ x ∈ (gs.map (fun e => e.2)).take j, x < now - 3600 := by
  obtain ⟨k, hk, hglob, hpref⟩ := hinv.glob_suffix
  obtain ⟨j, hj, he, hall⟩ := dropWhile_drop_eq_drop
    (fun t => decide (t < now - 3600)) (gs.map (fun e => e.2)) k hk
    (fun x hx => by
      have := hpref x hx
      simp only [decide_eq_true_eq]
      omega)
  refine ⟨j, hj, ?_, ?_⟩
  · unfold pruneOld
    rw [hglob]
    exact he
  · intro x hx
    have := hall x hx
    simpa using this

theorem glob_suffix_append {gs : List (String × Int)} {T : Int} {s : RL}
    {now : Int} (hinv : RLInv gs T s) (hT : T ≤ now) (c : String) :
    ∃ j, j ≤ ((gs ++ [(c, now)]).map (fun e => e.2)).length ∧
      pruneOld now s.glob ++ [now] =
        ((gs ++ [(c, now)]).map (fun e => e.2)).drop j ∧
      ∀ x ∈ ((gs ++ [(c, now)]).map (fun e => e.2)).take j, x < now - 3600 := by
  obtain ⟨j, hj, he, hall⟩ := glob_suffix_prune hinv hT
  have hmap : (gs ++ [(c, now)]).map (fun e => e.2) =
      gs.map (fun e => e.2) ++ [now] := by simp
  refine ⟨j, ?_, ?_, ?_⟩
  · rw [hmap, List.length_append]
    omega
  · rw [hmap, List.drop_append_of_le_length hj, he]
  · rw [hmap, List.take_append_of_le_length hj]
    exact hall

theorem RLInv_mono {gs : List (String × Int)} {T : Int} {s : RL}
    (hinv : RLInv gs T s) {T' : Int} (hT : T ≤ T') : RLInv gs T' s := by
  refine ⟨?_, hinv.keys_nodup, hinv.deque_nonempty, hinv.deque_le_last,
    ?_, ?_, ?_⟩
  · obtain ⟨k, hk, hglob, hpref⟩ := hinv.glob_suffix
    exact ⟨k, hk, hglob, fun x hx => by have := hpref x hx; omega⟩
  · exact fun p hp x hx => le_trans (hinv.deque_le_time p hp x hx) hT
  · intro c
    obtain ⟨d, hd, hold⟩ := hinv.grants_suffix c
    exact ⟨d, hd, fun x hx => by have := hold x hx; omega⟩
  · exact fun e he => le_trans (hinv.times_le e he) hT

theorem RLInv_init (T : Int) : RLInv [] T rlInit := by
  refine ⟨⟨0, by simp, rfl, by simp⟩, by simp [rlInit], by simp [rlInit],
    by simp [rlInit], by simp [rlInit], ?_, by simp⟩
  intro c
  exact ⟨[], by simp [cGrants, dequeOf, rlInit, lookupA], by simp⟩

/-- Common construction for the fresh-container grant: the new state
appends `(c, [now])` to `reqs1` (the request dict after a possible
eviction) and `now` to the pruned global deque. -/
theorem RLInv_fresh_append {gs : List (String × Int)} {T : Int} {s : RL}
    {now : Int} {c : String} {reqs1 : List (String × List Int)}
    (hinv : RLInv gs T s) (hT : T ≤ now)
    (hsub : ∀ p ∈ reqs1, p ∈ s.requests)
    (hnd1 : (reqs1.map (fun p => p.1)).Nodup)
    (hlook1 : lookupA reqs1 c = none)
    (hcg : ∀ c' : String, ∃ d, cGrants gs c' = d ++ (lookupA reqs1 c').getD [] ∧
      ∀ x ∈ d, x ≤ now - 3600) :
    RLInv (gs ++ [(c, now)]) now
      ⟨reqs1 ++ [(c, [now])], pruneOld now s.glob ++ [now]⟩ := by
  refine ⟨glob_suffix_append hinv hT c, ?_, ?_, ?_, ?_, ?_, ?_⟩
  · show ((reqs1 ++ [(c, [now])]).map (fun p => p.1)).Nodup
    rw [List.map_append, List.nodup_append]
    refine ⟨hnd1, by simp, ?_⟩
    intro a ha hb
    simp at hb
    subst hb
    rw [lookupA_eq_none_iff] at hlook1
    obtain ⟨p, hp, hpc⟩ := List.mem_map.mp ha
    exact hlook1 p hp hpc
  · intro p hp
    rcases List.mem_append.mp hp with hp | hp
    · exact hinv.deque_nonempty p (hsub p hp)
    · simp only [List.mem_singleton] at hp
      subst hp
      simp
  · intro p hp x hx
    rcases List.mem_append.mp hp with hp | hp
    · exact hinv.deque_le_last p (hsub p hp) x hx
    · simp only [List.mem_singleton] at hp
      subst hp
      simp only [List.mem_singleton] at hx
      subst hx
      simp [lastD]
  · intro p hp x hx
    rcases List.mem_append.mp hp with hp | hp
    · exact le_trans (hinv.deque_le_time p (hsub p hp) x hx) hT
    · simp only [List.mem_singleton] at hp
      subst hp
      simp only [List.mem_singleton] at hx
      omega
  · intro c'
    by_cases hcc : c' = c
    · subst hcc
      obtain ⟨d, hd, hold⟩ := hcg c'
      rw [hlook1] at hd
      simp only [Option.getD_none, List.append_nil] at hd
      refine ⟨d, ?_, hold⟩
      rw [cGrants_append, hd, cGrants_single_self]
      unfold dequeOf
      rw [lookupA_append_single reqs1 c' [now] hlook1]
      rfl
    · obtain ⟨d, hd, hold⟩ := hcg c'
      refine ⟨d, ?_, hold⟩
      rw [cGrants_append, cGrants_single_ne now (fun hh => hcc hh.symm),
        List.append_nil, hd]
      congr 1
      unfold dequeOf
      cases hl : lookupA reqs1 c' with
      | some v =>
        rw [lookupA_append_left _ hl]
      | none =>
        rw [lookupA_append_right _ hl,
          lookupA_single_ne (fun hh => hcc hh.symm)]
  · intro e he
    rcases List.mem_append.mp he with he | he
    · exact le_trans (hinv.times_le e he) hT
    · simp only [List.mem_singleton] at he
      subst he
      exact le_refl _

/-- One `check` call preserves the invariant, advancing the time to
`now` and appending the grant (if any) to the history. -/
theorem RLInv_step {gs : List (String × Int)} {T : Int} {s : RL} (c : String)
    (now : Int) (hinv : RLInv gs T s) (hT : T ≤ now) :
    RLInv (gs ++ (if (rlCheck s c now).1 then [(c, now)] else [])) now
      (rlCheck s c now).2 := by
  by_cases hgg : (pruneOld now s.glob).length ≥ GLOBAL_RATE_LIMIT_PER_HOUR
  · rw [rlCheck_glob_denied hgg]
    show RLInv (gs ++ []) now ⟨s.requests, pruneOld now s.glob⟩
    rw [List.append_nil]
    refine ⟨glob_suffix_prune hinv hT, hinv.keys_nodup, hinv.deque_nonempty,
      hinv.deque_le_last,
      fun p hp x hx => le_trans (hinv.deque_le_time p hp x hx) hT, ?_,
      fun e he2 => le_trans (hinv.times_le e he2) hT⟩
    intro c'
    obtain ⟨d, hd, hold⟩ := hinv.grants_suffix c'
    exact ⟨d, hd, fun x hx => by have := hold x hx; omega⟩
  · cases hqc : lookupA s.requests c with
    | some qc =>
      obtain ⟨pqc, hpqc, hpqc2⟩ := mem_of_lookupA hqc
      have heval := rlCheck_tracked_eval hgg hqc
      have hqc_last : ∀ x ∈ qc, x ≤ lastD qc :=
        hpqc2 ▸ hinv.deque_le_last pqc hpqc
      have hqc_time : ∀ x ∈ qc, x ≤ T :=
        hpqc2 ▸ hinv.deque_le_time pqc hpqc
      obtain ⟨d, hd, hold⟩ := hinv.grants_suffix c
      have hdqc : dequeOf s c = qc := by
        unfold dequeOf
        rw [hqc]
        rfl
      rw [hdqc] at hd
      have hsplitq : qc.takeWhile (fun t => decide (t < now - 3600)) ++
          pruneOld now qc = qc := by
        unfold pruneOld
        exact List.takeWhile_append_dropWhile (fun t => decide (t < now - 3600)) qc
      have htw_old : ∀ x ∈ qc.takeWhile (fun t => decide (t < now - 3600)),
          x ≤ now - 3600 := by
        intro x hx
        have h1 := mem_takeWhile_sat hx
        simp only [decide_eq_true_eq] at h1
        omega
      have hq1_mem : ∀ x ∈ pruneOld now qc, x ∈ qc := by
        intro x hx
        exact mem_of_mem_dropWhile hx
      by_cases hw : ((pruneOld now qc).filter (fun t => t > now - 60)).length ≥ 3 ∨
          ((pruneOld now qc).filter (fun t => t > now - 600)).length ≥ 10 ∨
          (pruneOld now qc).length ≥ 20
      · rw [heval, if_pos hw]
        show RLInv (gs ++ []) now
          ⟨updateA s.requests c (pruneOld now qc), pruneOld now s.glob⟩
        rw [List.append_nil]
        have hq1ne : ¬ pruneOld now qc = [] := by
          intro hnil
          rw [hnil] at hw
          simp at hw
        have hlast_eq : lastD (pruneOld now qc) = lastD qc := by
          conv_rhs => rw [← hsplitq]
          rw [lastD_append hq1ne]
        refine ⟨glob_suffix_prune hinv hT, ?_, ?_, ?_, ?_, ?_,
          fun e he2 => le_trans (hinv.times_le e he2) hT⟩
        · show ((updateA s.requests c (pruneOld now qc)).map (fun p => p.1)).Nodup
          rw [keys_updateA]
          exact hinv.keys_nodup
        · intro p hp
          rcases mem_updateA_or hp with hp' | hv
          · exact hinv.deque_nonempty p hp'
          · rw [hv]
            exact hq1ne
        · intro p hp x hx
          rcases mem_updateA_or hp with hp' | hv
          · exact hinv.deque_le_last p hp' x hx
          · rw [hv] at hx ⊢
            rw [hlast_eq]
            exact hqc_last x (hq1_mem x hx)
        · intro p hp x hx
          rcases mem_updateA_or hp with hp' | hv
          · exact le_trans (hinv.deque_le_time p hp' x hx) hT
          · rw [hv] at hx
            exact le_trans (hqc_time x (hq1_mem x hx)) hT
        · intro c'
          by_cases hcc : c' = c
          · subst hcc
            refine ⟨d ++ qc.takeWhile (fun t => decide (t < now - 3600)), ?_, ?_⟩
            · rw [hd]
              conv_lhs => rw [← hsplitq]
              rw [← List.append_assoc]
              congr 1
              unfold dequeOf
              rw [lookupA_updateA s.requests c' _ (by rw [hqc]; simp)]
              rfl
            · intro x hx
              rcases List.mem_append.mp hx with hx | hx
              · have := hold x hx
                omega
              · exact htw_old x hx
          · obtain ⟨d', hd', hold'⟩ := hinv.grants_suffix c'
            refine ⟨d', ?_, fun x hx => by have := hold' x hx; omega⟩
            rw [hd']
            congr 1
            unfold dequeOf
            rw [lookupA_updateA_ne s.requests c c' _ hcc]
      · rw [heval, if_neg hw]
        show RLInv (gs ++ [(c, now)]) now
          ⟨updateA s.requests c (pruneOld now qc ++ [now]),
            pruneOld now s.glob ++ [now]⟩
        refine ⟨glob_suffix_append hinv hT c, ?_, ?_, ?_, ?_, ?_, ?_⟩
        · show ((updateA s.requests c (pruneOld now qc ++ [now])).map
            (fun p => p.1)).Nodup
          rw [keys_updateA]
          exact hinv.keys_nodup
        · intro p hp
          rcases mem_updateA_or hp with hp' | hv
          · exact hinv.deque_nonempty p hp'
          · rw [hv]
            simp
        · intro p hp x hx
          rcases mem_updateA_or hp with hp' | hv
          · exact hinv.deque_le_last p hp' x hx
          · rw [hv] at hx ⊢
            rw [lastD_concat]
            rcases List.mem_append.mp hx with hx | hx
            · exact le_trans (hqc_time x (hq1_mem x hx)) hT
            · simp only [List.mem_singleton] at hx
              omega
        · intro p hp x hx
          rcases mem_updateA_or hp with hp' | hv
          · exact le_trans (hinv.deque_le_time p hp' x hx) hT
          · rw [hv] at hx
            rcases List.mem_append.mp hx with hx | hx
            · exact le_trans (hqc_time x (hq1_mem x hx)) hT
            · simp only [List.mem_singleton] at hx
              omega
        · intro c'
          by_cases hcc : c' = c
          · subst hcc
            refine ⟨d ++ qc.takeWhile (fun t => decide (t < now - 3600)), ?_, ?_⟩
            · rw [cGrants_append, cGrants_single_self, hd]
              conv_lhs => rw [← hsplitq]
              rw [← List.append_assoc]
              rw [List.append_assoc
                (d ++ qc.takeWhile (fun t => decide (t < now - 3600)))]
              congr 1
              unfold dequeOf
              rw [lookupA_updateA s.requests c' _ (by rw [hqc]; simp)]
              rfl
            · intro x hx
              rcases List.mem_append.mp hx with hx | hx
              · have := hold x hx
                omega
              · exact htw_old x hx
          · obtain ⟨d', hd', hold'⟩ := hinv.grants_suffix c'
            refine ⟨d', ?_, fun x hx => by have := hold' x hx; omega⟩
            rw [cGrants_append, cGrants_single_ne now (fun hh => hcc hh.symm),
              List.append_nil, hd']
            congr 1
            unfold dequeOf
            rw [lookupA_updateA_ne s.requests c c' _ hcc]
        · intro e he
          rcases List.mem_append.mp he with he | he
          · exact le_trans (hinv.times_le e he) hT
          · simp only [List.mem_singleton] at he
            subst he
            exact le_refl _
    | none =>
      obtain ⟨reqs1, hre, hlook1, heval⟩ := rlCheck_fresh_eval hgg hqc
      rw [heval]
      show RLInv (gs ++ [(c, now)]) now
        ⟨updateA (reqs1 ++ [(c, [])]) c [now], pruneOld now s.glob ++ [now]⟩
      have hupd : updateA (reqs1 ++ [(c, [])]) c [now] = reqs1 ++ [(c, [now])] :=
        updateA_append_single reqs1 c [] [now] hlook1
      rw [hupd]
      rcases hre with rfl | ⟨hlen, k0, hok, hre⟩
      · refine RLInv_fresh_append hinv hT (fun p hp => hp) hinv.keys_nodup
          hlook1 ?_
        intro c'
        obtain ⟨d, hd, hold⟩ := hinv.grants_suffix c'
        exact ⟨d, hd, fun x hx => by have := hold x hx; omega⟩
      · subst hre
        have hevict := evict_oldest_old hinv hT hgg hlen hok
        refine RLInv_fresh_append hinv hT (fun p hp => mem_of_removeA hp)
          (List.Sublist.nodup (keys_removeA_sublist s.requests k0)
            hinv.keys_nodup) hlook1 ?_
        intro c'
        by_cases hck : c' = k0
        · subst hck
          obtain ⟨d, hd, hold⟩ := hinv.grants_suffix c'
          refine ⟨d ++ dequeOf s c', ?_, ?_⟩
          · rw [hd, lookupA_removeA]
            simp
          · intro x hx
            rcases List.mem_append.mp hx with hx | hx
            · have := hold x hx
              omega
            · exact hevict x hx
        · obtain ⟨d, hd, hold⟩ := hinv.grants_suffix c'
          refine ⟨d, ?_, fun x hx => by have := hold x hx; omega⟩
          rw [hd]
          congr 1
          unfold dequeOf
          rw [lookupA_removeA_ne s.requests k0 c' hck]

theorem inWindow_iff {w d t : Int} : inWindow w d t = true ↔ (w < t ∧ t ≤ w + d) := by
  simp [inWindow]

theorem window_chain {d qc : List Int} {w dd t0 : Int}
    (hold : ∀ x ∈ d, x ≤ t0 - 3600)
    (hwlo : t0 - dd ≤ w) (hdd : dd ≤ 3600) :
    ((d ++ qc).filter (inWindow w dd)).length ≤
      ((pruneOld t0 qc).filter (fun t => decide (t > t0 - dd))).length := by
  have hdnil : d.filter (inWindow w dd) = [] :=
    filter_eq_nil_of_none (fun x hx => by
      have := hold x hx
      simp only [inWindow, decide_eq_false_iff_not]
      intro hcon
      omega)
  rw [List.filter_append, hdnil, List.nil_append]
  have h1 : qc.filter (inWindow w dd) = (pruneOld t0 qc).filter (inWindow w dd) := by
    unfold pruneOld
    exact (filter_dropWhile_eq (fun x hx hq => by
      simp only [decide_eq_true_eq] at hq
      simp only [inWindow, decide_eq_false_iff_not]
      intro hcon
      omega)).symm
  rw [h1]
  apply length_filter_mono
  intro x hx
  simp only [inWindow, decide_eq_true_eq] at hx
  simp only [decide_eq_true_eq]
  omega

theorem rl_granted_container_bound {gs : List (String × Int)} {s1 : RL}
    {t0 : Int} {c0 : String} {qc : List Int}
    (hinv : RLInv gs t0 s1)
    (hqc : lookupA s1.requests c0 = some qc)
    (w dd : Int) (hwlo : t0 - dd ≤ w) (hdd : dd ≤ 3600) :
    ((cGrants gs c0).filter (inWindow w dd)).length ≤
      ((pruneOld t0 qc).filter (fun t => decide (t > t0 - dd))).length := by
  obtain ⟨d, hd, hold⟩ := hinv.grants_suffix c0
  have hdqc : dequeOf s1 c0 = qc := by
    unfold dequeOf
    rw [hqc]
    rfl
  rw [hdqc] at hd
  rw [hd]
  exact window_chain hold hwlo hdd

theorem rl_granted_fresh_bound {gs : List (String × Int)} {s1 : RL}
    {t0 : Int} {c0 : String}
    (hinv : RLInv gs t0 s1)
    (hqc : lookupA s1.requests c0 = none)
    (w dd : Int) (hwlo : t0 - dd ≤ w) (hdd : dd ≤ 3600) :
    ((cGrants gs c0).filter (inWindow w dd)).length = 0 := by
  obtain ⟨d, hd, hold⟩ := hinv.grants_suffix c0
  have hdq : dequeOf s1 c0 = [] := by
    unfold dequeOf
    rw [hqc]
    rfl
  rw [hdq, List.append_nil] at hd
  rw [hd]
  rw [filter_eq_nil_of_none (fun x hx => by
    have := hold x hx
    simp only [inWindow, decide_eq_false_iff_not]
    intro hcon
    omega)]
  rfl

theorem rl_granted_global_bound {gs : List (String × Int)} {s1 : RL} {t0 : Int}
    (hinv : RLInv gs t0 s1) (w : Int) (hwlo : t0 - 3600 ≤ w) :
    ((gs.map (fun e => e.2)).filter (inWindow w 3600)).length ≤
      (pruneOld t0 s1.glob).length := by
  obtain ⟨k, hk, hglob, hpref⟩ := hinv.glob_suffix
  have h0 : ((gs.map (fun e => e.2)).filter (inWindow w 3600)).length =
      ((s1.glob).filter (inWindow w 3600)).length := by
    conv_lhs => rw [← List.take_append_drop k (gs.map (fun e => e.2))]
    rw [List.filter_append, List.length_append,
      filter_eq_nil_of_none (fun x hx => by
        have := hpref x hx
        simp only [inWindow, decide_eq_false_iff_not]
        intro hcon
        omega), ← hglob]
    simp
  rw [h0]
  have h1 : s1.glob.filter (inWindow w 3600) =
      (pruneOld t0 s1.glob).filter (inWindow w 3600) := by
    unfold pruneOld
    exact (filter_dropWhile_eq (fun x hx hq => by
      simp only [decide_eq_true_eq] at hq
      simp only [inWindow, decide_eq_false_iff_not]
      intro hcon
      omega)).symm
  rw [h1]
  exact List.length_filter_le _ _

theorem RLInv_run_aux :
    ∀ (tr : List (String × Int)) (gs : List (String × Int)) (T0 : Int) (s : RL),
    RLInv gs T0 s → tr.Pairwise (fun a b => a.2 ≤ b.2) →
    (∀ e ∈ tr, T0 ≤ e.2) → ∀ T : Int, T0 ≤ T → (∀ e ∈ tr, e.2 ≤ T) →
    RLInv (gs ++ rlGrants s tr) T (rlRun s tr) := by
  intro tr
  induction tr with
  | nil =>
    intro gs T0 s hinv _ _ T hT _
    simpa [rlGrants, rlRun] using RLInv_mono hinv hT
  | cons e rest ih =>
    intro gs T0 s hinv hp hlow T hT hhigh
    obtain ⟨c, t⟩ := e
    have hT0t : T0 ≤ t := hlow (c, t) (by simp)
    have hstep := RLInv_step c t hinv hT0t
    have hrest_low : ∀ e2 ∈ rest, t ≤ e2.2 := by
      intro e2 he2
      exact (List.pairwise_cons.mp hp).1 e2 he2
    have hrest_high : ∀ e2 ∈ rest, e2.2 ≤ T := fun e2 he2 => hhigh e2 (by simp [he2])
    have htT : t ≤ T := hhigh (c, t) (by simp)
    have hres := ih (gs ++ (if (rlCheck s c t).1 then [(c, t)] else [])) t
      (rlCheck s c t).2 hstep (List.pairwise_cons.mp hp).2 hrest_low T htT
      hrest_high
    simp only [rlGrants, rlRun, List.append_assoc] at hres ⊢
    exact hres

theorem RLInv_run (tr : List (String × Int))
    (hp : tr.Pairwise (fun a b => a.2 ≤ b.2)) (T : Int)
    (hhigh : ∀ e ∈ tr, e.2 ≤ T) :
    RLInv (rlGrants rlInit tr) T (rlRun rlInit tr) := by
  cases tr with
  | nil =>
    simpa [rlGrants, rlRun] using RLInv_init T
  | cons e rest =>
    obtain ⟨c, t⟩ := e
    have hlow : ∀ e2 ∈ (c, t) :: rest, t ≤ e2.2 := by
      intro e2 he2
      rcases List.mem_cons.mp he2 with rfl | he2
      · exact le_refl _
      · exact (List.pairwise_cons.mp hp).1 e2 he2
    have htT : t ≤ T := hhigh (c, t) (by simp)
    have := RLInv_run_aux ((c, t) :: rest) [] t rlInit (RLInv_init t) hp hlow
      T htT hhigh
    simpa using this

set_option maxHeartbeats 1000000 in
theorem rl_window_bounds_aux :
    ∀ (tr : List (String × Int)), tr.Pairwise (fun a b => a.2 ≤ b.2) →
    ∀ (c : String) (w : Int),
    ((cGrants (rlGrants rlInit tr) c).filter (inWindow w 60)).length ≤ 3 ∧
    ((cGrants (rlGrants rlInit tr) c).filter (inWindow w 600)).length ≤ 10 ∧
    ((cGrants (rlGrants rlInit tr) c).filter (inWindow w 3600)).length ≤ 20 ∧
    (((rlGrants rlInit tr).map (fun e => e.2)).filter
      (inWindow w 3600)).length ≤ 30 := by
  intro tr
  induction tr using List.reverseRecOn with
  | nil =>
    intro _ c w
    simp [rlGrants, cGrants]
  | append_singleton tr e ih =>
    intro hp c w
    obtain ⟨c0, t0⟩ := e
    have hp' : tr.Pairwise (fun a b => a.2 ≤ b.2) := (List.pairwise_append.mp hp).1
    have hle : ∀ a ∈ tr, a.2 ≤ t0 := by
      intro a ha
      exact (List.pairwise_append.mp hp).2.2 a ha (c0, t0) (by simp)
    have hinv : RLInv (rlGrants rlInit tr) t0 (rlRun rlInit tr) :=
      RLInv_run tr hp' t0 hle
    have ihh := ih hp' c w
    have hsplit : rlGrants rlInit (tr ++ [(c0, t0)]) =
        rlGrants rlInit tr ++
          (if (rlCheck (rlRun rlInit tr) c0 t0).1 then [(c0, t0)] else []) := by
      rw [rlGrants_append]
      congr 1
      simp [rlGrants]
    by_cases hb : (rlCheck (rlRun rlInit tr) c0 t0).1 = true
    · rw [hsplit, if_pos hb]
      have hgg : ¬ (pruneOld t0 (rlRun rlInit tr).glob).length ≥
          GLOBAL_RATE_LIMIT_PER_HOUR := by
        intro hcap
        rw [rlCheck_glob_denied hcap] at hb
        simp at hb
      have hglobal : (((rlGrants rlInit tr ++ [(c0, t0)]).map
          (fun e => e.2)).filter (inWindow w 3600)).length ≤ 30 := by
        rw [List.map_append, List.filter_append, List.length_append]
        by_cases hin : inWindow w 3600 t0 = true
        · obtain ⟨hw1, hw2⟩ := inWindow_iff.mp hin
          have hgb := rl_granted_global_bound hinv w (by omega)
          have hsing : (([(c0, t0)].map (fun e => e.2)).filter
              (inWindow w 3600)).length = 1 := by
            simp [List.filter_cons, hin]
          unfold GLOBAL_RATE_LIMIT_PER_HOUR at hgg
          omega
        · have hsing : (([(c0, t0)].map (fun e => e.2)).filter
              (inWindow w 3600)).length = 0 := by
            simp [List.filter_cons, hin]
          have h30 := ihh.2.2.2
          omega
      by_cases hcc : c0 = c
      · subst hcc
        have hcg : cGrants (rlGrants rlInit tr ++ [(c0, t0)]) c0 =
            cGrants (rlGrants rlInit tr) c0 ++ [t0] := by
          rw [cGrants_append, cGrants_single_self]
        rw [hcg]
        cases hqc : lookupA (rlRun rlInit tr).requests c0 with
        | none =>
          refine ⟨?_, ?_, ?_, hglobal⟩
          all_goals rw [List.filter_append, List.length_append]
          · by_cases hin : inWindow w 60 t0 = true
            · obtain ⟨hw1, hw2⟩ := inWindow_iff.mp hin
              have h0 := rl_granted_fresh_bound hinv hqc w 60 (by omega) (by omega)
              have hsing : (([t0] : List Int).filter (inWindow w 60)).length = 1 := by
                simp [List.filter_cons, hin]
              omega
            · have hsing : (([t0] : List Int).filter (inWindow w 60)).length = 0 := by
                simp [List.filter_cons, hin]
              have h3 := ihh.1
              omega
          · by_cases hin : inWindow w 600 t0 = true
            · obtain ⟨hw1, hw2⟩ := inWindow_iff.mp hin
              have h0 := rl_granted_fresh_bound hinv hqc w 600 (by omega) (by omega)
              have hsing : (([t0] : List Int).filter (inWindow w 600)).length = 1 := by
                simp [List.filter_cons, hin]
              omega
            · have hsing : (([t0] : List Int).filter (inWindow w 600)).length = 0 := by
                simp [List.filter_cons, hin]
              have h10 := ihh.2.1
              omega
          · by_cases hin : inWindow w 3600 t0 = true
            · obtain ⟨hw1, hw2⟩ := inWindow_iff.mp hin
              have h0 := rl_granted_fresh_bound hinv hqc w 3600 (by omega) (by omega)
              have hsing : (([t0] : List Int).filter (inWindow w 3600)).length = 1 := by
                simp [List.filter_cons, hin]
              omega
            · have hsing : (([t0] : List Int).filter (inWindow w 3600)).length = 0 := by
                simp [List.filter_cons, hin]
              have h20 := ihh.2.2.1
              omega
        | some qc =>
          have heval := rlCheck_tracked_eval hgg hqc
          have hwcond : ¬ (((pruneOld t0 qc).filter
                (fun t => t > t0 - 60)).length ≥ 3 ∨
              ((pruneOld t0 qc).filter (fun t => t > t0 - 600)).length ≥ 10 ∨
              (pruneOld t0 qc).length ≥ 20) := by
            intro hcond
            rw [heval, if_pos hcond] at hb
            simp at hb
          have hqlen := List.length_filter_le
            (fun t => decide (t > t0 - 3600)) (pruneOld t0 qc)
          refine ⟨?_, ?_, ?_, hglobal⟩
          all_goals rw [List.filter_append, List.length_append]
          · by_cases hin : inWindow w 60 t0 = true
            · obtain ⟨hw1, hw2⟩ := inWindow_iff.mp hin
              have hob := rl_granted_container_bound hinv hqc w 60
                (by omega) (by omega)
              have hsing : (([t0] : List Int).filter (inWindow w 60)).length = 1 := by
                simp [List.filter_cons, hin]
              omega
            · have hsing : (([t0] : List Int).filter (inWindow w 60)).length = 0 := by
                simp [List.filter_cons, hin]
              have h3 := ihh.1
              omega
          · by_cases hin : inWindow w 600 t0 = true
            · obtain ⟨hw1, hw2⟩ := inWindow_iff.mp hin
              have hob := rl_granted_container_bound hinv hqc w 600
                (by omega) (by omega)
              have hsing : (([t0] : List Int).filter (inWindow w 600)).length = 1 := by
                simp [List.filter_cons, hin]
              omega
            · have hsing : (([t0] : List Int).filter (inWindow w 600)).length = 0 := by
                simp [List.filter_cons, hin]
              have h10 := ihh.2.1
              omega
          · by_cases hin : inWindow w 3600 t0 = true
            · obtain ⟨hw1, hw2⟩ := inWindow_iff.mp hin
              have hob := rl_granted_container_bound hinv hqc w 3600
                (by omega) (by omega)
              have hsing : (([t0] : List Int).filter (inWindow w 3600)).length = 1 := by
                simp [List.filter_cons, hin]
              omega
            · have hsing : (([t0] : List Int).filter (inWindow w 3600)).length = 0 := by
                simp [List.filter_cons, hin]
              have h20 := ihh.2.2.1
              omega
      · have hcg : cGrants (rlGrants rlInit tr ++ [(c0, t0)]) c =
            cGrants (rlGrants rlInit tr) c := by
          rw [cGrants_append, cGrants_single_ne t0 hcc, List.append_nil]
        rw [hcg]
        exact ⟨ihh.1, ihh.2.1, ihh.2.2.1, hglobal⟩
    · rw [hsplit, if_neg hb, List.append_nil]
      exact ihh

/-- C2: over any monotone sequence of `check` calls starting from a
fresh `RateLimiter`, `check` returns `True` for a single container at
most 3 times in any 60-second window `(w, w + 60]`, at most 10 times in
any 600-second window, at most 20 times in any 3600-second window, and
at most 30 times across all containers in any 3600-second window. -/
theorem rateLimiter_window_bounds (tr : List (String × Int))
    (hmono : tr.Pairwise (fun a b => a.2 ≤ b.2)) (c : String) (w : Int) :
    ((cGrants (rlGrants rlInit tr) c).filter (inWindow w 60)).length ≤ 3 ∧
    ((cGrants (rlGrants rlInit tr) c).filter (inWindow w 600)).length ≤ 10 ∧
    ((cGrants (rlGrants rlInit tr) c).filter (inWindow w 3600)).length ≤ 20 ∧
    (((rlGrants rlInit tr).map (fun e => e.2)).filter
      (inWindow w 3600)).length ≤ 30 :=
  rl_window_bounds_aux tr hmono c w

/-- Witness for C2 at a concrete monotone trace. -/
theorem rateLimiter_window_bounds_witness :
    ((cGrants (rlGrants rlInit [("a", 0), ("a", 1), ("a", 2), ("a", 3)]) "a").filter
        (inWindow (-1) 60)).length ≤ 3 ∧
      ((cGrants (rlGrants rlInit [("a", 0), ("a", 1), ("a", 2), ("a", 3)]) "a").filter
        (inWindow (-1) 600)).length ≤ 10 ∧
      ((cGrants (rlGrants rlInit [("a", 0), ("a", 1), ("a", 2), ("a", 3)]) "a").filter
        (inWindow (-1) 3600)).length ≤ 20 ∧
      (((rlGrants rlInit [("a", 0), ("a", 1), ("a", 2), ("a", 3)]).map
          (fun e => e.2)).filter (inWindow (-1) 3600)).length ≤ 30 :=
  rateLimiter_window_bounds [("a", 0), ("a", 1), ("a", 2), ("a", 3)]
    (by decide) "a" (-1)

end Bubble
